import Mathlib

/-!
Verification of the sales-roleplay backend's transcript-scoring core.

The definitions below are a shallow embedding of the scoring logic of
`src/server.js` (the conversation metrics engine `analyzeSession`, its
keyword vocabularies and sub-score formulas, and the PII redactor
`redactPII`) together with the transcript-only variant of `analyzeSession`
found in the unnamed source file `src/unnamed/part_000`.

Modelling conventions:
- JavaScript numbers are embedded as exact rationals (`ℚ`); `Math.round`
  becomes `jsRound` (round half toward +∞), `Math.ceil` on naturals is
  expressed with `Nat` ceiling division.  IEEE-754 double rounding is
  abstracted away.
- JavaScript strings are ASCII text: `toLowerCase` maps `A`-`Z` to
  `a`-`z`, `\s` is ASCII whitespace.
- A conversation turn's possibly-missing `message` field is an
  `Option String` (`none` models an absent/undefined field); the engine,
  which in the source throws a `TypeError` when a trainee turn's message
  is not a string, is embedded as `analyzeSessionE` returning `Except`.
-/

namespace SalesRoleplay

/-- JavaScript `Math.round`: round half toward `+∞`, computed on the
rational's numerator and denominator so that the kernel can evaluate it;
`jsRound_eq_floor` below identifies it with `⌊q + 1/2⌋`. -/
def jsRound (q : ℚ) : ℤ := (2 * q.num + q.den) / (2 * (q.den : ℤ))

/-- ASCII whitespace, the fragment of the JS regex class `\s` exercised here. -/
def isWsChar (c : Char) : Bool :=
  c = ' ' || c = '\t' || c = '\n' || c = '\r' || c = '\x0b' || c = '\x0c'

/-- Sentence separators of `split(/[.!?]+/)` in `analyzeSession`. -/
def isSentenceSep (c : Char) : Bool :=
  c = '.' || c = '!' || c = '?'

/-- ASCII lower-casing of one character, as `String.prototype.toLowerCase`
acts on ASCII text. -/
def lowerChar (c : Char) : Char :=
  if 'A' ≤ c ∧ c ≤ 'Z' then Char.ofNat (c.toNat + 32) else c

/-- ASCII lower-casing of a character list. -/
def lowerStr (s : List Char) : List Char := s.map lowerChar

/-- JavaScript `hay.includes(needle)`: `needle` occurs as a contiguous
substring of `hay`. -/
def listContainsSub (needle hay : List Char) : Bool :=
  hay.tails.any (fun t => needle.isPrefixOf t)

/-- JavaScript `String.prototype.split` on a regex matching nonempty runs of
characters satisfying `p`: maximal separator runs split the string, a leading
(resp. trailing) separator run contributes a leading (resp. trailing) empty
fragment, and splitting the empty string yields `[[]]`. -/
def splitRuns (p : Char → Bool) : List Char → List (List Char)
  | [] => [[]]
  | c :: rest =>
    if p c then
      match rest with
      | [] => [[], []]
      | d :: _ => if p d then splitRuns p rest else [] :: splitRuns p rest
    else
      match splitRuns p rest with
      | h :: t => (c :: h) :: t
      | [] => [[c]]

/-- One turn of a conversation history: a speaker tag and a `message` field
that may be absent (`none` models a turn whose `message` is not a string). -/
structure ConversationTurn where
  speaker : String
  message : Option String
deriving DecidableEq

/-- The metrics record produced by `analyzeSession` in `src/server.js`.
The last four fields are absent (`none`) on the empty-input default record,
which the source builds without them. -/
structure SessionMetrics where
  talkTimeRatio : ℤ
  fillerWordCount : ℕ
  confidenceScore : ℤ
  wordCount : ℕ
  averageSentenceLength : ℚ
  conversationLength : ℕ
  discovery_score : ℕ
  product_knowledge_score : ℕ
  objection_handling_score : ℕ
  business_value_score : ℕ
  overall_effectiveness_score : ℕ
  google_ads_concepts_used : Option (List String)
  discovery_questions_count : Option ℕ
  objection_handling_count : Option ℕ
  business_value_mentions : Option ℕ
deriving DecidableEq

/-- JavaScript truthiness of the `transcript` argument: `null`/`undefined`
(`none`) and the empty string are falsy. -/
def jsTruthy : Option String → Bool
  | none => false
  | some s => !(s == "")

/-- JavaScript `array.join(' ')`. -/
def joinSpace (l : List String) : String := String.intercalate " " l

/-- The trainee turns: `conversationHistory.filter(msg => msg.speaker === 'user')`. -/
def userTurns (h : List ConversationTurn) : List ConversationTurn :=
  h.filter (fun t => t.speaker == "user")

/-- A turn's message as the string JS coerces it to when joining
(`undefined` contributes the empty string). -/
def msgOrEmpty (t : ConversationTurn) : String := t.message.getD ""

/-- The filler vocabulary of `analyzeSession` (`src/server.js` line 340). -/
def fillerWords : List String :=
  ["um", "uh", "like", "you know", "basically", "literally", "actually"]

/-- The Google-Ads concept vocabulary of `analyzeSession`
(`src/server.js` lines 362-368). -/
def googleAdsConcepts : List String :=
  ["quality score", "cpc", "ctr", "roas", "performance max", "smart campaigns",
   "search campaigns", "display network", "youtube ads", "shopping campaigns",
   "keyword research", "negative keywords", "bidding strategy", "ad extensions",
   "conversion tracking", "remarketing", "audience targeting", "budget optimization",
   "google ads", "advertising", "marketing", "campaigns", "keywords", "budget"]

/-- The discovery-question keyword set actually tested by `analyzeSession`
(`src/server.js` lines 377-387): it has `how`/`what`/`why`/`when`/`where`
but neither `measure` nor `success`. -/
def discoveryKeywords : List String :=
  ["goal", "currently", "budget", "target", "competition", "challenge",
   "how", "what", "why", "when", "where"]

/-- The objection-handling phrase set of `analyzeSession`
(`src/server.js` lines 392-401). -/
def objectionPhrases : List String :=
  ["understand", "let me explain", "for example", "actually",
   "what i mean", "let me show you", "i see your point", "that makes sense"]

/-- The business-value keyword set of `analyzeSession`
(`src/server.js` lines 404-415). -/
def businessValueKeywords : List String :=
  ["roi", "return", "revenue", "growth", "customers", "sales",
   "profit", "increase", "improve", "results"]

/-- The analysis text (`src/server.js` lines 317-324): the space-joined
trainee messages when the history is nonempty, else the transcript (or `''`). -/
def textToAnalyze (transcript : Option String) (h : List ConversationTurn) : String :=
  if h.length ≠ 0 then joinSpace ((userTurns h).map msgOrEmpty)
  else transcript.getD ""

/-- Word tokens (`src/server.js` line 328): lower-case, split on whitespace
runs, empty tokens discarded. -/
def wordsOf (text : String) : List (List Char) :=
  (splitRuns isWsChar (lowerStr text.data)).filter (fun w => !w.isEmpty)

/-- Sentence fragments (`src/server.js` line 329): split on `[.!?]` runs,
fragments that trim to empty discarded. -/
def sentencesOf (text : String) : List (List Char) :=
  (splitRuns isSentenceSep text.data).filter (fun s => s.any (fun c => !isWsChar c))

/-- Filler-word count (`src/server.js` lines 341-343): word tokens containing
some filler entry as a substring. -/
def fillerCountOf (ws : List (List Char)) : ℕ :=
  (ws.filter (fun w => fillerWords.any (fun f => listContainsSub f.data w))).length

/-- Confidence score (`src/server.js` lines 346-347 and 427):
`Math.round(Math.max(20, Math.min(100, 100 - fillerRatio * 200)))` with
`fillerRatio = fillerWordCount / wordCount` (0 when there are no words);
the inner value is written as the single fraction
`(100 * wc - 200 * filler) / wc` so the kernel can evaluate it, and
`confidenceOf_eq_floor` recovers the source's shape. -/
def confidenceOf (filler wc : ℕ) : ℤ :=
  jsRound (max 20 (min 100
    (if 0 < wc then Rat.divInt (100 * (wc : ℤ) - 200 * (filler : ℤ)) wc else 100)))

/-- Talk-time estimate (`src/server.js` lines 354-356):
`Math.round((userMessages.length / totalMessages) * 100)` when the history is
nonempty, else `50`. -/
def talkTimeOf (userCount total : ℕ) : ℤ :=
  if 0 < total then jsRound (Rat.divInt (100 * (userCount : ℤ)) total) else 50

/-- Stored average sentence length (`src/server.js` lines 350-351 and 429):
`Math.round(avg * 10) / 10` where `avg = words/sentences` (0 when no sentences). -/
def aslStored (wc sc : ℕ) : ℚ :=
  Rat.divInt (jsRound (if 0 < sc then Rat.divInt (10 * (wc : ℤ)) sc else 0)) 10

/-- Whether a trainee message counts as a discovery question
(`src/server.js` lines 375-388): it contains `'?'` and, lower-cased, one of
the `discoveryKeywords`. -/
def isDiscoveryQuestion (m : String) : Bool :=
  listContainsSub ['?'] m.data &&
    discoveryKeywords.any (fun k => listContainsSub k.data (lowerStr m.data))

/-- Discovery-question count over the trainee turns (`src/server.js` line 375). -/
def discoveryCount (h : List ConversationTurn) : ℕ :=
  ((userTurns h).filter (fun t => isDiscoveryQuestion (msgOrEmpty t))).length

/-- Objection-handling count (`src/server.js` lines 392-401). -/
def objectionCount (h : List ConversationTurn) : ℕ :=
  ((userTurns h).filter (fun t =>
    objectionPhrases.any (fun p =>
      listContainsSub p.data (lowerStr (msgOrEmpty t).data)))).length

/-- Business-value mention count (`src/server.js` lines 404-415). -/
def businessValueCount (h : List ConversationTurn) : ℕ :=
  ((userTurns h).filter (fun t =>
    businessValueKeywords.any (fun k =>
      listContainsSub k.data (lowerStr (msgOrEmpty t).data)))).length

/-- Google-Ads concepts found in the joined trainee text
(`src/server.js` lines 359-371). -/
def conceptsUsedOf (h : List ConversationTurn) : List String :=
  googleAdsConcepts.filter (fun c =>
    listContainsSub (lowerStr c.data)
      (lowerStr (joinSpace ((userTurns h).map msgOrEmpty)).data))

/-- Discovery sub-score (`src/server.js` line 418):
`Math.min(5, Math.max(1, Math.ceil(discoveryQuestions / 2) + 1))`;
`(d + 1) / 2` is the `Nat` ceiling of `d / 2`. -/
def discoveryScoreOf (d : ℕ) : ℕ := min 5 (max 1 ((d + 1) / 2 + 1))

/-- Product-knowledge sub-score (`src/server.js` line 419):
`Math.min(5, Math.max(1, concepts > 0 ? concepts + 1 : 1))`. -/
def productKnowledgeScoreOf (c : ℕ) : ℕ :=
  min 5 (max 1 (if 0 < c then c + 1 else 1))

/-- Objection-handling sub-score (`src/server.js` line 420):
`Math.min(5, Math.max(1, objections > 0 ? objections + 2 : 1))`. -/
def objectionHandlingScoreOf (o : ℕ) : ℕ :=
  min 5 (max 1 (if 0 < o then o + 2 else 1))

/-- Business-value sub-score (`src/server.js` line 421):
`Math.min(5, Math.max(1, mentions > 0 ? mentions + 2 : 1))`. -/
def businessValueScoreOf (b : ℕ) : ℕ :=
  min 5 (max 1 (if 0 < b then b + 2 else 1))

/-- Overall effectiveness (`src/server.js` line 422):
`Math.min(5, Math.max(1, Math.ceil(sum / 4)))`; `(s + 3) / 4` is the `Nat`
ceiling of `s / 4`. -/
def overallScoreOf (a b c d : ℕ) : ℕ := min 5 (max 1 ((a + b + c + d + 3) / 4))

/-- The default record `analyzeSession` returns on absent/empty input
(`src/server.js` lines 300-315); the source builds it without the four
Google-Ads fields, hence `none` there. -/
def defaultMetrics : SessionMetrics :=
  { talkTimeRatio := 50
    fillerWordCount := 0
    confidenceScore := 50
    wordCount := 0
    averageSentenceLength := 0
    conversationLength := 0
    discovery_score := 2
    product_knowledge_score := 2
    objection_handling_score := 2
    business_value_score := 2
    overall_effectiveness_score := 2
    google_ads_concepts_used := none
    discovery_questions_count := none
    objection_handling_count := none
    business_value_mentions := none }

/-- The record built on the non-default path of `analyzeSession`
(`src/server.js` lines 317-440), assuming every trainee turn carries a
string message (otherwise the source throws, see `analyzeSessionE`). -/
def computeMetrics (transcript : Option String) (h : List ConversationTurn) :
    SessionMetrics :=
  let words := wordsOf (textToAnalyze transcript h)
  let sentences := sentencesOf (textToAnalyze transcript h)
  let filler := fillerCountOf words
  let dq := discoveryCount h
  let oc := objectionCount h
  let bv := businessValueCount h
  let cu := conceptsUsedOf h
  let ds := discoveryScoreOf dq
  let pk := productKnowledgeScoreOf cu.length
  let oh := objectionHandlingScoreOf oc
  let bvs := businessValueScoreOf bv
  { talkTimeRatio := talkTimeOf (userTurns h).length h.length
    fillerWordCount := filler
    confidenceScore := confidenceOf filler words.length
    wordCount := words.length
    averageSentenceLength := aslStored words.length sentences.length
    conversationLength := h.length
    discovery_score := ds
    product_knowledge_score := pk
    objection_handling_score := oh
    business_value_score := bvs
    overall_effectiveness_score := overallScoreOf ds pk oh bvs
    google_ads_concepts_used := some cu
    discovery_questions_count := some dq
    objection_handling_count := some oc
    business_value_mentions := some bv }

/-- `analyzeSession(transcript, conversationHistory)` of `src/server.js`
lines 295-446.  `Except.error ()` embeds the `TypeError` the source throws
at line 376 (`msg.message.includes('?')`) when some trainee turn's message
is absent; the empty-input branch returns the default record first. -/
def analyzeSessionE (transcript : Option String) (h : List ConversationTurn) :
    Except Unit SessionMetrics :=
  if !jsTruthy transcript && h.length == 0 then .ok defaultMetrics
  else if h.any (fun t => t.speaker == "user" && t.message.isNone) then .error ()
  else .ok (computeMetrics transcript h)

instance : DecidableEq (Except Unit SessionMetrics) := fun a b =>
  match a, b with
  | .error x, .error y =>
    if h : x = y then .isTrue (by rw [h]) else .isFalse (fun he => h (Except.error.inj he))
  | .error _, .ok _ => .isFalse (fun he => Except.noConfusion he)
  | .ok _, .error _ => .isFalse (fun he => Except.noConfusion he)
  | .ok x, .ok y =>
    if h : x = y then .isTrue (by rw [h]) else .isFalse (fun he => h (Except.ok.inj he))

/-- The record of the transcript-only `analyzeSession(transcript)` variant
(`src/unnamed/part_000` lines 1182-1220). -/
structure BasicMetrics where
  talkTimeRatio : ℤ
  fillerWordCount : ℕ
  confidenceScore : ℤ
  wordCount : ℕ
  averageSentenceLength : ℚ
deriving DecidableEq

/-- The transcript-only `analyzeSession(transcript)` of `src/unnamed/part_000`
lines 1182-1220: words are split on whitespace but not filtered, and the
talk-time ratio is `Math.round(Math.min(80, Math.max(20, words.length / 10)))`. -/
def analyzeSessionT (transcript : Option String) : BasicMetrics :=
  if !jsTruthy transcript then
    { talkTimeRatio := 0, fillerWordCount := 0, confidenceScore := 50,
      wordCount := 0, averageSentenceLength := 0 }
  else
    let text := transcript.getD ""
    let words := splitRuns isWsChar (lowerStr text.data)
    let sentences := sentencesOf text
    let filler := fillerCountOf words
    { talkTimeRatio := jsRound (min 80 (max 20 (Rat.divInt (words.length : ℤ) 10)))
      fillerWordCount := filler
      confidenceScore := jsRound (max 20 (min 100
        (Rat.divInt (100 * (words.length : ℤ) - 200 * (filler : ℤ)) words.length)))
      wordCount := words.length
      averageSentenceLength := aslStored words.length sentences.length }

/-- Modelled from the spec's words for claim comparison: the
discovery-keyword set as the specification states it, including `measure`
and `success` alongside the interrogatives. -/
def claimDiscoveryKeywords : List String :=
  ["goal", "currently", "budget", "target", "competition", "challenge",
   "measure", "success", "how", "what", "why", "when", "where"]

/-- Modelled from the spec's words: a discovery question per the claimed
keyword set `claimDiscoveryKeywords`. -/
def claimIsDiscoveryQuestion (m : String) : Bool :=
  listContainsSub ['?'] m.data &&
    claimDiscoveryKeywords.any (fun k => listContainsSub k.data (lowerStr m.data))

/-- Modelled from the spec's words: the discovery-question count under the
claimed keyword set. -/
def claimDiscoveryCount (h : List ConversationTurn) : ℕ :=
  ((userTurns h).filter (fun t => claimIsDiscoveryQuestion (msgOrEmpty t))).length

/-- The confidence formula as the claim states it:
`clamp(round(100 - 200 * filler / words), 20, 100)`, ratio `0` when
`words = 0` (clamp outside the rounding). -/
def claimConfidenceFormula (filler wc : ℕ) : ℤ :=
  max 20 (min 100 (jsRound (100 - (if 0 < wc then (filler : ℚ) / wc else 0) * 200)))

/-! The PII redactor `redactPII` (`src/server.js` lines 81-100): five global
regex replacements applied in order.  The regexes are embedded as a small
regular-expression syntax `RE` whose semantics `run` lists every possible
match outcome in JavaScript's backtracking preference order (greedy
quantifiers try longer consumptions first, optional groups try presence
first); the scanner `scanRep` replaces the first outcome at each position,
exactly as `String.prototype.replace` with a global regex does. -/

/-- ASCII word characters, the JS regex class `\w` underlying `\b`. -/
def isWordChar (c : Char) : Bool :=
  ('a' ≤ c && c ≤ 'z') || ('A' ≤ c && c ≤ 'Z') || ('0' ≤ c && c ≤ '9') || c = '_'

/-- Word-character status of an optional character (string edges count as
non-word). -/
def isWordOpt : Option Char → Bool
  | none => false
  | some c => isWordChar c

/-- The JS `\b` assertion between the previous character and the rest of the
input. -/
def wordBoundary (prev : Option Char) (s : List Char) : Bool :=
  isWordOpt prev != isWordOpt s.head?

/-- Regular-expression syntax: exactly the constructs the five PII patterns
use (character classes, sequencing, greedy `?`, greedy `*` over a class,
`\b`, and the empty pattern). -/
inductive RE : Type
  | eps : RE
  | cls (p : Char → Bool) : RE
  | seq (a b : RE) : RE
  | opt (a : RE) : RE
  | star (p : Char → Bool) : RE
  | wb : RE

/-- All outcomes of a greedy `p*` at this position, longest consumption
first; an outcome is the pair (last character consumed so far, remaining
input). -/
def runStar (p : Char → Bool) : Option Char → List Char → List (Option Char × List Char)
  | prev, [] => [(prev, [])]
  | prev, c :: r =>
    if p c then runStar p (some c) r ++ [(prev, c :: r)] else [(prev, c :: r)]

/-- All outcomes of a pattern at this position in JS backtracking preference
order. -/
def run : RE → Option Char → List Char → List (Option Char × List Char)
  | .eps, prev, s => [(prev, s)]
  | .cls _, _, [] => []
  | .cls p, _, c :: r => if p c then [(some c, r)] else []
  | .seq a b, prev, s => (run a prev s).flatMap (fun pr => run b pr.1 pr.2)
  | .opt a, prev, s => run a prev s ++ [(prev, s)]
  | .star p, prev, s => runStar p prev s
  | .wb, prev, s => if wordBoundary prev s then [(prev, s)] else []

/-- Greedy `p+` as `p` followed by greedy `p*`: same backtracking order as
the JS quantifier. -/
def rePlus (p : Char → Bool) : RE := .seq (.cls p) (.star p)

/-- `n` mandatory repetitions of the class `p` (the `{n}` quantifier). -/
def reRep (p : Char → Bool) : ℕ → RE
  | 0 => .eps
  | n + 1 => .seq (.cls p) (reRep p n)

/-- Character class of the email local part, `[A-Za-z0-9._%+-]`. -/
def emailLocalChar (c : Char) : Bool :=
  ('a' ≤ c && c ≤ 'z') || ('A' ≤ c && c ≤ 'Z') || ('0' ≤ c && c ≤ '9') ||
    c = '.' || c = '_' || c = '%' || c = '+' || c = '-'

/-- Character class of the email domain, `[A-Za-z0-9.-]`. -/
def emailDomainChar (c : Char) : Bool :=
  ('a' ≤ c && c ≤ 'z') || ('A' ≤ c && c ≤ 'Z') || ('0' ≤ c && c ≤ '9') ||
    c = '.' || c = '-'

/-- Character class of the email TLD, `[A-Z|a-z]` (the source's class
includes a literal `|`). -/
def emailTldChar (c : Char) : Bool :=
  ('a' ≤ c && c ≤ 'z') || ('A' ≤ c && c ≤ 'Z') || c = '|'

/-- ASCII digits, `[0-9]`/`\d`. -/
def isDigitChar (c : Char) : Bool := '0' ≤ c && c ≤ '9'

/-- The phone-number separator class `[-.\s]`. -/
def phoneSepChar (c : Char) : Bool := c = '-' || c = '.' || isWsChar c

/-- The card-number separator class `[-\s]`. -/
def cardSepChar (c : Char) : Bool := c = '-' || isWsChar c

/-- Uppercase ASCII letters `[A-Z]`. -/
def isUpperChar (c : Char) : Bool := 'A' ≤ c && c ≤ 'Z'

/-- Lowercase ASCII letters `[a-z]`. -/
def isLowerChar (c : Char) : Bool := 'a' ≤ c && c ≤ 'z'

/-- `\b[A-Za-z0-9._%+-]+@[A-Za-z0-9.-]+\.[A-Z|a-z]{2,}\b`
(`src/server.js` line 85). -/
def emailRE : RE :=
  .seq .wb (.seq (rePlus emailLocalChar) (.seq (.cls (fun c => c = '@'))
    (.seq (rePlus emailDomainChar) (.seq (.cls (fun c => c = '.'))
      (.seq (.cls emailTldChar) (.seq (.cls emailTldChar)
        (.seq (.star emailTldChar) .wb)))))))

/-- The optional country code `(?:\+?1[-.\s]?)?` body. -/
def phoneCountry : RE :=
  .seq (.opt (.cls (fun c => c = '+')))
    (.seq (.cls (fun c => c = '1')) (.opt (.cls phoneSepChar)))

/-- `\b(?:\+?1[-.\s]?)?\(?([0-9]{3})\)?[-.\s]?([0-9]{3})[-.\s]?([0-9]{4})\b`
(`src/server.js` line 88); capture groups do not affect matching. -/
def phoneRE : RE :=
  .seq .wb (.seq (.opt phoneCountry) (.seq (.opt (.cls (fun c => c = '(')))
    (.seq (reRep isDigitChar 3) (.seq (.opt (.cls (fun c => c = ')')))
      (.seq (.opt (.cls phoneSepChar)) (.seq (reRep isDigitChar 3)
        (.seq (.opt (.cls phoneSepChar)) (.seq (reRep isDigitChar 4) .wb))))))))

/-- `\b\d{3}-?\d{2}-?\d{4}\b` (`src/server.js` line 91). -/
def ssnRE : RE :=
  .seq .wb (.seq (reRep isDigitChar 3) (.seq (.opt (.cls (fun c => c = '-')))
    (.seq (reRep isDigitChar 2) (.seq (.opt (.cls (fun c => c = '-')))
      (.seq (reRep isDigitChar 4) .wb)))))

/-- `\b\d{4}[-\s]?\d{4}[-\s]?\d{4}[-\s]?\d{4}\b` (`src/server.js` line 94). -/
def cardRE : RE :=
  .seq .wb (.seq (reRep isDigitChar 4) (.seq (.opt (.cls cardSepChar))
    (.seq (reRep isDigitChar 4) (.seq (.opt (.cls cardSepChar))
      (.seq (reRep isDigitChar 4) (.seq (.opt (.cls cardSepChar))
        (.seq (reRep isDigitChar 4) .wb)))))))

/-- `\b[A-Z][a-z]+ [A-Z][a-z]+\b` (`src/server.js` line 97). -/
def nameRE : RE :=
  .seq .wb (.seq (.cls isUpperChar) (.seq (rePlus isLowerChar)
    (.seq (.cls (fun c => c = ' ')) (.seq (.cls isUpperChar)
      (.seq (rePlus isLowerChar) .wb)))))

/-- Global regex replacement, as `String.prototype.replace` with a `g` regex:
scan left to right, at each position take the backtracker's first outcome,
replace it and resume after it (the previous character for `\b` stays the
last character of the original match).  The guard covers JS's advance-by-one
on an empty match; the five PII patterns never match the empty string. -/
def scanRep (re : RE) (repl : List Char) : Option Char → List Char → List Char
  | _, [] => []
  | prev, c :: rest =>
    match (run re prev (c :: rest)).head? with
    | some (p', remaining) =>
      if _hlt : remaining.length < rest.length + 1 then
        repl ++ scanRep re repl p' remaining
      else
        repl ++ c :: scanRep re repl (some c) rest
    | none => c :: scanRep re repl (some c) rest
termination_by _ s => s.length
decreasing_by
  all_goals simp
  omega

/-- `'[EMAIL_REDACTED]'`. -/
def emailRepl : List Char := "[EMAIL_REDACTED]".data

/-- `'[PHONE_REDACTED]'`. -/
def phoneRepl : List Char := "[PHONE_REDACTED]".data

/-- `'[SSN_REDACTED]'`. -/
def ssnRepl : List Char := "[SSN_REDACTED]".data

/-- `'[CARD_REDACTED]'`. -/
def cardRepl : List Char := "[CARD_REDACTED]".data

/-- `'[NAME_REDACTED]'`. -/
def nameRepl : List Char := "[NAME_REDACTED]".data

/-- `redactPII` (`src/server.js` lines 81-100): falsy input is returned
unchanged, otherwise the five replacements are applied in order (email,
phone, SSN, card, name). -/
def redactPII (text : String) : String :=
  if text == "" then text
  else
    ⟨scanRep nameRE nameRepl none
      (scanRep cardRE cardRepl none
        (scanRep ssnRE ssnRepl none
          (scanRep phoneRE phoneRepl none
            (scanRep emailRE emailRepl none text.data))))⟩

/-- The previous-character value after consuming `m` starting from `prev`. -/
def lastPrev (prev : Option Char) (m : List Char) : Option Char :=
  match m.getLast? with
  | some c => some c
  | none => prev

/-- Over-approximation of the characters a pattern can consume. -/
def alphabetOf : RE → Char → Bool
  | .eps => fun _ => false
  | .cls p => p
  | .seq a b => fun c => alphabetOf a c || alphabetOf b c
  | .opt a => alphabetOf a
  | .star p => p
  | .wb => fun _ => false

/-- Minimal number of characters a pattern consumes. -/
def minLen : RE → ℕ
  | .eps => 0
  | .cls _ => 1
  | .seq a b => minLen a + minLen b
  | .opt _ => 0
  | .star _ => 0
  | .wb => 0

/-- Whether a pattern's first component is the `\b` assertion. -/
def startsWithWb : RE → Bool
  | .seq a _ => startsWithWb a
  | .wb => true
  | _ => false

/-- Whether a pattern's last component is the `\b` assertion. -/
def endsInWb : RE → Bool
  | .seq _ b => endsInWb b
  | .wb => true
  | _ => false

/-- No match of `re` starts at any position of `s`, scanning with `prev` as
the character preceding `s`. -/
def cleanFrom (re : RE) : Option Char → List Char → Prop
  | _, [] => True
  | prev, c :: rest => run re prev (c :: rest) = [] ∧ cleanFrom re (some c) rest

/-! Bridging lemmas: the computable numeric definitions agree with the
mathematical `⌊·⌋`/field-operation formulas of the source and spec. -/

theorem jsRound_eq_floor (q : ℚ) : jsRound q = ⌊q + 1/2⌋ := by
  have h2 : q + 1/2 = ((2 * q.num + q.den : ℤ) : ℚ) / ((2 * q.den : ℕ) : ℚ) := by
    have hden : ((q.den : ℚ)) ≠ 0 := Nat.cast_ne_zero.mpr q.den_nz
    conv_lhs => rw [← Rat.num_div_den q]
    push_cast
    field_simp
    ring
  rw [jsRound, h2, Rat.floor_intCast_div_natCast]
  push_cast
  ring_nf

theorem jsRound_mono {q r : ℚ} (h : q ≤ r) : jsRound q ≤ jsRound r := by
  rw [jsRound_eq_floor, jsRound_eq_floor]
  exact Int.floor_le_floor (by linarith)

theorem jsRound_intCast (n : ℤ) : jsRound ((n : ℚ)) = n := by
  rw [jsRound_eq_floor, Int.floor_int_add]
  norm_num

theorem jsRound_le_of_le {q : ℚ} {n : ℤ} (h : q ≤ (n : ℚ)) : jsRound q ≤ n := by
  have := jsRound_mono h
  rwa [jsRound_intCast] at this

theorem le_jsRound_of_le {q : ℚ} {n : ℤ} (h : (n : ℚ) ≤ q) : n ≤ jsRound q := by
  have := jsRound_mono h
  rwa [jsRound_intCast] at this

/-- The confidence argument written as one fraction equals the source's
`100 - fillerRatio * 200`. -/
theorem confArg_eq (f w : ℕ) :
    (if 0 < w then Rat.divInt (100 * (w : ℤ) - 200 * (f : ℤ)) w else 100) =
      100 - (if 0 < w then (f : ℚ) / w else 0) * 200 := by
  split_ifs with hw
  · have hw' : ((w : ℚ)) ≠ 0 := Nat.cast_ne_zero.mpr hw.ne'
    rw [Rat.divInt_eq_div]
    push_cast
    field_simp
    ring
  · norm_num

/-- `confidenceOf` in the source's shape. -/
theorem confidenceOf_eq (f w : ℕ) :
    confidenceOf f w =
      jsRound (max 20 (min 100 (100 - (if 0 < w then (f : ℚ) / w else 0) * 200))) := by
  rw [confidenceOf, confArg_eq]

/-- `talkTimeOf` in the source's shape for a nonempty history. -/
theorem talkTimeOf_eq (u t : ℕ) (ht : 0 < t) :
    talkTimeOf u t = jsRound ((u : ℚ) / t * 100) := by
  have ht' : ((t : ℚ)) ≠ 0 := Nat.cast_ne_zero.mpr ht.ne'
  rw [talkTimeOf, if_pos ht, Rat.divInt_eq_div]
  congr 1
  push_cast
  field_simp
  ring

theorem fillerCountOf_le (ws : List (List Char)) : fillerCountOf ws ≤ ws.length :=
  List.length_filter_le _ _

theorem userTurns_length_le (h : List ConversationTurn) :
    (userTurns h).length ≤ h.length :=
  List.length_filter_le _ _

theorem confidenceOf_bounds (f w : ℕ) :
    20 ≤ confidenceOf f w ∧ confidenceOf f w ≤ 100 := by
  constructor
  · exact le_jsRound_of_le (by
      push_cast
      exact le_max_left _ _)
  · refine jsRound_le_of_le ?_
    push_cast
    refine max_le (by norm_num) (min_le_left _ _)

theorem talkTimeOf_bounds {u t : ℕ} (hu : u ≤ t) :
    0 ≤ talkTimeOf u t ∧ talkTimeOf u t ≤ 100 := by
  by_cases ht : 0 < t
  · rw [talkTimeOf_eq u t ht]
    have ht' : (0 : ℚ) < (t : ℚ) := by exact_mod_cast ht
    constructor
    · exact le_jsRound_of_le (by positivity)
    · refine jsRound_le_of_le ?_
      push_cast
      rw [div_mul_eq_mul_div, div_le_iff₀ ht']
      have : ((u : ℚ)) ≤ (t : ℚ) := by exact_mod_cast hu
      nlinarith
  · rw [talkTimeOf, if_neg ht]
    norm_num

theorem discoveryScoreOf_bounds (n : ℕ) :
    1 ≤ discoveryScoreOf n ∧ discoveryScoreOf n ≤ 5 := by
  unfold discoveryScoreOf
  omega

theorem productKnowledgeScoreOf_bounds (n : ℕ) :
    1 ≤ productKnowledgeScoreOf n ∧ productKnowledgeScoreOf n ≤ 5 := by
  unfold productKnowledgeScoreOf
  split_ifs <;> omega

theorem objectionHandlingScoreOf_bounds (n : ℕ) :
    1 ≤ objectionHandlingScoreOf n ∧ objectionHandlingScoreOf n ≤ 5 := by
  unfold objectionHandlingScoreOf
  split_ifs <;> omega

theorem businessValueScoreOf_bounds (n : ℕ) :
    1 ≤ businessValueScoreOf n ∧ businessValueScoreOf n ≤ 5 := by
  unfold businessValueScoreOf
  split_ifs <;> omega

theorem overallScoreOf_bounds (a b c d : ℕ) :
    1 ≤ overallScoreOf a b c d ∧ overallScoreOf a b c d ≤ 5 := by
  unfold overallScoreOf
  omega

theorem discoveryScoreOf_mono {a b : ℕ} (h : a ≤ b) :
    discoveryScoreOf a ≤ discoveryScoreOf b := by
  unfold discoveryScoreOf
  have : (a + 1) / 2 ≤ (b + 1) / 2 := Nat.div_le_div_right (by omega)
  omega

theorem productKnowledgeScoreOf_mono {a b : ℕ} (h : a ≤ b) :
    productKnowledgeScoreOf a ≤ productKnowledgeScoreOf b := by
  unfold productKnowledgeScoreOf
  split_ifs <;> omega

theorem objectionHandlingScoreOf_mono {a b : ℕ} (h : a ≤ b) :
    objectionHandlingScoreOf a ≤ objectionHandlingScoreOf b := by
  unfold objectionHandlingScoreOf
  split_ifs <;> omega

theorem businessValueScoreOf_mono {a b : ℕ} (h : a ≤ b) :
    businessValueScoreOf a ≤ businessValueScoreOf b := by
  unfold businessValueScoreOf
  split_ifs <;> omega

/-! Projection lemmas exposing the fields of the non-default record. -/

theorem computeMetrics_confidenceScore (t : Option String) (h : List ConversationTurn) :
    (computeMetrics t h).confidenceScore =
      confidenceOf (fillerCountOf (wordsOf (textToAnalyze t h)))
        (wordsOf (textToAnalyze t h)).length := rfl

theorem computeMetrics_talkTimeRatio (t : Option String) (h : List ConversationTurn) :
    (computeMetrics t h).talkTimeRatio = talkTimeOf (userTurns h).length h.length := rfl

theorem computeMetrics_wordCount (t : Option String) (h : List ConversationTurn) :
    (computeMetrics t h).wordCount = (wordsOf (textToAnalyze t h)).length := rfl

theorem computeMetrics_fillerWordCount (t : Option String) (h : List ConversationTurn) :
    (computeMetrics t h).fillerWordCount =
      fillerCountOf (wordsOf (textToAnalyze t h)) := rfl

theorem computeMetrics_scores (t : Option String) (h : List ConversationTurn) :
    (computeMetrics t h).discovery_score = discoveryScoreOf (discoveryCount h) ∧
    (computeMetrics t h).product_knowledge_score =
      productKnowledgeScoreOf (conceptsUsedOf h).length ∧
    (computeMetrics t h).objection_handling_score =
      objectionHandlingScoreOf (objectionCount h) ∧
    (computeMetrics t h).business_value_score =
      businessValueScoreOf (businessValueCount h) ∧
    (computeMetrics t h).overall_effectiveness_score =
      overallScoreOf (discoveryScoreOf (discoveryCount h))
        (productKnowledgeScoreOf (conceptsUsedOf h).length)
        (objectionHandlingScoreOf (objectionCount h))
        (businessValueScoreOf (businessValueCount h)) :=
  ⟨rfl, rfl, rfl, rfl, rfl⟩

theorem computeMetrics_counts (t : Option String) (h : List ConversationTurn) :
    (computeMetrics t h).discovery_questions_count = some (discoveryCount h) ∧
    (computeMetrics t h).objection_handling_count = some (objectionCount h) ∧
    (computeMetrics t h).business_value_mentions = some (businessValueCount h) :=
  ⟨rfl, rfl, rfl⟩

/-- Case analysis for `analyzeSessionE`: a successful analysis is either the
default record on empty input or the computed record on well-formed input. -/
theorem analyzeSessionE_ok_cases {t : Option String} {h : List ConversationTurn}
    {m : SessionMetrics} (hm : analyzeSessionE t h = .ok m) :
    m = defaultMetrics ∨ m = computeMetrics t h := by
  unfold analyzeSessionE at hm
  split at hm
  · exact Or.inl (Except.ok.inj hm).symm
  · split at hm
    · exact absurd hm (by simp)
    · exact Or.inr (Except.ok.inj hm).symm

/-- On non-empty input (truthy transcript or nonempty history) a successful
analysis is the computed record. -/
theorem analyzeSessionE_ok_nonempty {t : Option String} {h : List ConversationTurn}
    {m : SessionMetrics} (hm : analyzeSessionE t h = .ok m)
    (hne : jsTruthy t = true ∨ h ≠ []) : m = computeMetrics t h := by
  unfold analyzeSessionE at hm
  split at hm
  · rename_i hcond
    exfalso
    rcases Bool.and_eq_true_iff.mp hcond with ⟨ht, hl⟩
    rcases hne with hne | hne
    · rw [hne] at ht
      simp at ht
    · exact hne (List.length_eq_zero.mp (by simpa using hl))
  · split at hm
    · exact absurd hm (by simp)
    · exact (Except.ok.inj hm).symm

/-- The computed record's filler count never exceeds its word count. -/
theorem computeMetrics_filler_le (t : Option String) (h : List ConversationTurn) :
    (computeMetrics t h).fillerWordCount ≤ (computeMetrics t h).wordCount := by
  rw [computeMetrics_fillerWordCount, computeMetrics_wordCount]
  exact fillerCountOf_le _

/-- Every successful analysis has `fillerWordCount ≤ wordCount`. -/
theorem ok_filler_le {t : Option String} {h : List ConversationTurn}
    {m : SessionMetrics} (hm : analyzeSessionE t h = .ok m) :
    m.fillerWordCount ≤ m.wordCount := by
  rcases analyzeSessionE_ok_cases hm with rfl | rfl
  · exact le_refl 0
  · exact computeMetrics_filler_le t h

/-! The claims. -/

/-- C2: `analyzeSession(null, [])` and `analyzeSession("", [])` return the
documented default record: `wordCount = 0`, `fillerWordCount = 0`,
`confidenceScore = 50`, `talkTimeRatio = 50`, `averageSentenceLength = 0`,
`conversationLength = 0`, and every five-point sub-score (discovery, product
knowledge, objection handling, business value, overall effectiveness)
equal to 2. -/
theorem c2_default_on_empty_input :
    analyzeSessionE none [] = .ok defaultMetrics ∧
    analyzeSessionE (some "") [] = .ok defaultMetrics ∧
    defaultMetrics.wordCount = 0 ∧
    defaultMetrics.fillerWordCount = 0 ∧
    defaultMetrics.confidenceScore = 50 ∧
    defaultMetrics.talkTimeRatio = 50 ∧
    defaultMetrics.averageSentenceLength = 0 ∧
    defaultMetrics.conversationLength = 0 ∧
    defaultMetrics.discovery_score = 2 ∧
    defaultMetrics.product_knowledge_score = 2 ∧
    defaultMetrics.objection_handling_score = 2 ∧
    defaultMetrics.business_value_score = 2 ∧
    defaultMetrics.overall_effectiveness_score = 2 :=
  ⟨rfl, rfl, rfl, rfl, rfl, rfl, rfl, rfl, rfl, rfl, rfl, rfl, rfl⟩

/-- C3: every record a successful analysis returns satisfies
`confidenceScore ∈ [20,100]`, `talkTimeRatio ∈ [0,100]`, and each of the
five sub-scores lies in `[1,5]`. -/
theorem c3_metrics_bounds :
    ∀ (t : Option String) (h : List ConversationTurn) (m : SessionMetrics),
      analyzeSessionE t h = .ok m →
      (20 ≤ m.confidenceScore ∧ m.confidenceScore ≤ 100) ∧
      (0 ≤ m.talkTimeRatio ∧ m.talkTimeRatio ≤ 100) ∧
      (1 ≤ m.discovery_score ∧ m.discovery_score ≤ 5) ∧
      (1 ≤ m.product_knowledge_score ∧ m.product_knowledge_score ≤ 5) ∧
      (1 ≤ m.objection_handling_score ∧ m.objection_handling_score ≤ 5) ∧
      (1 ≤ m.business_value_score ∧ m.business_value_score ≤ 5) ∧
      (1 ≤ m.overall_effectiveness_score ∧ m.overall_effectiveness_score ≤ 5) := by
  intro t h m hm
  rcases analyzeSessionE_ok_cases hm with rfl | rfl
  · exact ⟨by decide, by decide, by decide, by decide, by decide, by decide, by decide⟩
  · obtain ⟨hd, hp, ho, hb, hov⟩ := computeMetrics_scores t h
    refine ⟨?_, ?_, ?_, ?_, ?_, ?_, ?_⟩
    · rw [computeMetrics_confidenceScore]
      exact confidenceOf_bounds _ _
    · rw [computeMetrics_talkTimeRatio]
      exact talkTimeOf_bounds (userTurns_length_le h)
    · rw [hd]
      exact discoveryScoreOf_bounds _
    · rw [hp]
      exact productKnowledgeScoreOf_bounds _
    · rw [ho]
      exact objectionHandlingScoreOf_bounds _
    · rw [hb]
      exact businessValueScoreOf_bounds _
    · rw [hov]
      exact overallScoreOf_bounds _ _ _ _

/-- Witness for C3 at a concrete input. -/
theorem c3_metrics_bounds_witness :
    ∃ m, analyzeSessionE (some "um uh") [] = .ok m ∧
      (20 ≤ m.confidenceScore ∧ m.confidenceScore ≤ 100) ∧
      (0 ≤ m.talkTimeRatio ∧ m.talkTimeRatio ≤ 100) ∧
      (1 ≤ m.discovery_score ∧ m.discovery_score ≤ 5) ∧
      (1 ≤ m.product_knowledge_score ∧ m.product_knowledge_score ≤ 5) ∧
      (1 ≤ m.objection_handling_score ∧ m.objection_handling_score ≤ 5) ∧
      (1 ≤ m.business_value_score ∧ m.business_value_score ≤ 5) ∧
      (1 ≤ m.overall_effectiveness_score ∧ m.overall_effectiveness_score ≤ 5) :=
  ⟨_, rfl, c3_metrics_bounds (some "um uh") [] _ rfl⟩

/-- C6: each of the four per-metric sub-score mappings is non-decreasing in
its count, bounded above by 5, and maps a zero count to the documented
floor of 1 or 2. -/
theorem c6_subscore_shape :
    (∀ a b : ℕ, a ≤ b →
        discoveryScoreOf a ≤ discoveryScoreOf b ∧
        productKnowledgeScoreOf a ≤ productKnowledgeScoreOf b ∧
        objectionHandlingScoreOf a ≤ objectionHandlingScoreOf b ∧
        businessValueScoreOf a ≤ businessValueScoreOf b) ∧
    (∀ n : ℕ, discoveryScoreOf n ≤ 5 ∧ productKnowledgeScoreOf n ≤ 5 ∧
        objectionHandlingScoreOf n ≤ 5 ∧ businessValueScoreOf n ≤ 5) ∧
    ((discoveryScoreOf 0 = 1 ∨ discoveryScoreOf 0 = 2) ∧
     (productKnowledgeScoreOf 0 = 1 ∨ productKnowledgeScoreOf 0 = 2) ∧
     (objectionHandlingScoreOf 0 = 1 ∨ objectionHandlingScoreOf 0 = 2) ∧
     (businessValueScoreOf 0 = 1 ∨ businessValueScoreOf 0 = 2)) := by
  refine ⟨fun a b hab => ⟨discoveryScoreOf_mono hab, productKnowledgeScoreOf_mono hab,
      objectionHandlingScoreOf_mono hab, businessValueScoreOf_mono hab⟩,
    fun n => ⟨(discoveryScoreOf_bounds n).2, (productKnowledgeScoreOf_bounds n).2,
      (objectionHandlingScoreOf_bounds n).2, (businessValueScoreOf_bounds n).2⟩,
    Or.inl (by decide), Or.inl (by decide), Or.inl (by decide), Or.inl (by decide)⟩

/-- C10: every successful analysis satisfies `fillerWordCount ≤ wordCount`,
so the filler ratio in the confidence formula lies in `[0, 1]`. -/
theorem c10_filler_ratio_bounded :
    ∀ (t : Option String) (h : List ConversationTurn) (m : SessionMetrics),
      analyzeSessionE t h = .ok m →
      m.fillerWordCount ≤ m.wordCount ∧
      0 ≤ (if 0 < m.wordCount then (m.fillerWordCount : ℚ) / m.wordCount else 0) ∧
      (if 0 < m.wordCount then (m.fillerWordCount : ℚ) / m.wordCount else 0) ≤ 1 := by
  intro t h m hm
  have hle := ok_filler_le hm
  refine ⟨hle, ?_, ?_⟩
  · split_ifs with hw
    · positivity
    · norm_num
  · split_ifs with hw
    · rw [div_le_one (by exact_mod_cast hw)]
      exact_mod_cast hle
    · norm_num

/-- C1 counterexample: a history whose single trainee turn lacks a string
message makes `analyzeSession` throw (the embedded `TypeError`), so the
analysis does surface a failure instead of substituting a default record. -/
theorem c1_counterexample :
    analyzeSessionE none [⟨"user", none⟩] = .error () := by decide

/-- C1 (amended): whenever every trainee turn carries a string message,
`analyzeSession` returns a record and never fails; a trainee turn without a
string message instead raises a `TypeError` that the `/api/sessions/end`
handler surfaces as an HTTP 500 error response, not as a fallback record. -/
theorem c1_no_failure_on_wellformed :
    ∀ (t : Option String) (h : List ConversationTurn),
      (∀ turn ∈ h, turn.speaker = "user" → turn.message.isSome) →
      ∃ m, analyzeSessionE t h = .ok m := by
  intro t h hwf
  unfold analyzeSessionE
  split
  · exact ⟨defaultMetrics, rfl⟩
  · have hany : h.any (fun tu => tu.speaker == "user" && tu.message.isNone) = false := by
      rw [Bool.eq_false_iff]
      intro hsome
      obtain ⟨tu, hmem, htu⟩ := List.any_eq_true.mp hsome
      rcases Bool.and_eq_true_iff.mp htu with ⟨hspk, hnone⟩
      have := hwf tu hmem (by simpa using hspk)
      rw [Option.isNone_iff_eq_none.mp hnone] at this
      simp at this
    rw [hany]
    exact ⟨computeMetrics t h, rfl⟩

/-- Witness for the amended C1 at a concrete input. -/
theorem c1_no_failure_on_wellformed_witness :
    ∃ m, analyzeSessionE (some "hello") [⟨"user", some "Hi"⟩] = .ok m :=
  c1_no_failure_on_wellformed (some "hello") [⟨"user", some "Hi"⟩] (by decide)

/-- C9: a non-empty history with no trainee turns makes the engine ignore the
transcript entirely and analyze the empty string: `wordCount = 0`,
`confidenceScore = 100` and `talkTimeRatio = 0`, not the empty-input defaults
of 50/50. -/
theorem c9_history_without_trainee_turns :
    ∀ (t : Option String) (h : List ConversationTurn),
      h ≠ [] → (∀ turn ∈ h, turn.speaker ≠ "user") →
      (∀ t' : Option String, analyzeSessionE t' h = analyzeSessionE t h) ∧
      ∃ m, analyzeSessionE t h = .ok m ∧
        m.wordCount = 0 ∧ m.confidenceScore = 100 ∧ m.talkTimeRatio = 0 ∧
        m.confidenceScore ≠ 50 ∧ m.talkTimeRatio ≠ 50 := by
  intro t h hne hnu
  have hu : userTurns h = [] := by
    rw [userTurns, List.filter_eq_nil_iff]
    intro a ha
    simpa using hnu a ha
  have hlen : h.length ≠ 0 := fun hl => hne (List.length_eq_zero.mp hl)
  have htext : ∀ t0 : Option String, textToAnalyze t0 h = "" := by
    intro t0
    rw [textToAnalyze, if_pos hlen, hu]
    rfl
  have hok : ∀ t0 : Option String, analyzeSessionE t0 h = .ok (computeMetrics t0 h) := by
    intro t0
    unfold analyzeSessionE
    have h1 : (!jsTruthy t0 && h.length == 0) = false := by
      have : (h.length == 0) = false := by simpa using hlen
      rw [this, Bool.and_false]
    have h2 : h.any (fun tu => tu.speaker == "user" && tu.message.isNone) = false := by
      rw [Bool.eq_false_iff]
      intro hsome
      obtain ⟨tu, hmem, htu⟩ := List.any_eq_true.mp hsome
      rcases Bool.and_eq_true_iff.mp htu with ⟨hspk, _⟩
      exact hnu tu hmem (by simpa using hspk)
    rw [h1, h2]
    simp
  have hcm : ∀ t0 : Option String, computeMetrics t0 h = computeMetrics t h := by
    intro t0
    unfold computeMetrics
    rw [htext t0, htext t]
  refine ⟨fun t' => by rw [hok t', hok t, hcm t'], ⟨computeMetrics t h, hok t, ?_, ?_, ?_, ?_, ?_⟩⟩
  · rw [computeMetrics_wordCount, htext t]
    rfl
  · rw [computeMetrics_confidenceScore, htext t]
    decide
  · rw [computeMetrics_talkTimeRatio, hu, talkTimeOf]
    rw [if_pos (Nat.pos_of_ne_zero hlen)]
    norm_num
    decide
  · rw [computeMetrics_confidenceScore, htext t]
    decide
  · rw [computeMetrics_talkTimeRatio, hu, talkTimeOf]
    rw [if_pos (Nat.pos_of_ne_zero hlen)]
    norm_num
    decide

/-- Witness for C9 at a concrete input. -/
theorem c9_history_without_trainee_turns_witness :
    (∀ t' : Option String,
        analyzeSessionE t' [⟨"ai", some "Hello there"⟩] =
          analyzeSessionE (some "ignored") [⟨"ai", some "Hello there"⟩]) ∧
    ∃ m, analyzeSessionE (some "ignored") [⟨"ai", some "Hello there"⟩] = .ok m ∧
      m.wordCount = 0 ∧ m.confidenceScore = 100 ∧ m.talkTimeRatio = 0 ∧
      m.confidenceScore ≠ 50 ∧ m.talkTimeRatio ≠ 50 :=
  c9_history_without_trainee_turns (some "ignored") [⟨"ai", some "Hello there"⟩]
    (by decide) (by decide)

/-- Witness for C10 at a concrete input. -/
theorem c10_filler_ratio_bounded_witness :
    ∃ m, analyzeSessionE (some "um uh basically fine") [] = .ok m ∧
      m.fillerWordCount ≤ m.wordCount ∧
      0 ≤ (if 0 < m.wordCount then (m.fillerWordCount : ℚ) / m.wordCount else 0) ∧
      (if 0 < m.wordCount then (m.fillerWordCount : ℚ) / m.wordCount else 0) ≤ 1 :=
  ⟨_, rfl, c10_filler_ratio_bounded (some "um uh basically fine") [] _ rfl⟩

/-- Rounding then clamping to the integer interval `[20, 100]` agrees with
clamping first and rounding afterwards. -/
theorem jsRound_clamp_comm (v : ℚ) :
    jsRound (max 20 (min 100 v)) = max 20 (min 100 (jsRound v)) := by
  rcases le_total (100 : ℚ) v with hv | hv
  · have h1 : min (100 : ℚ) v = 100 := min_eq_left hv
    have h2 : (100 : ℤ) ≤ jsRound v := by
      have := jsRound_mono hv
      rwa [show ((100 : ℚ)) = ((100 : ℤ) : ℚ) by norm_num, jsRound_intCast] at this
    rw [h1, min_eq_left h2, max_eq_right (by decide : (20 : ℚ) ≤ 100),
      max_eq_right (by omega : (20 : ℤ) ≤ 100)]
    decide
  · have h1 : min (100 : ℚ) v = v := min_eq_right hv
    have h2 : jsRound v ≤ 100 := by
      have := jsRound_mono hv
      rwa [show ((100 : ℚ)) = ((100 : ℤ) : ℚ) by norm_num, jsRound_intCast] at this
    rw [h1, min_eq_right h2]
    rcases le_total (20 : ℚ) v with hw | hw
    · have h3 : (20 : ℤ) ≤ jsRound v := by
        have := jsRound_mono hw
        rwa [show ((20 : ℚ)) = ((20 : ℤ) : ℚ) by norm_num, jsRound_intCast] at this
      rw [max_eq_right hw, max_eq_right h3]
    · have h3 : jsRound v ≤ 20 := by
        have := jsRound_mono hw
        rwa [show ((20 : ℚ)) = ((20 : ℤ) : ℚ) by norm_num, jsRound_intCast] at this
      rw [max_eq_left hw, max_eq_left h3]
      decide

/-- The computed confidence score equals the claim's clamp-outside formula. -/
theorem confidenceOf_eq_claimFormula (f w : ℕ) :
    confidenceOf f w = claimConfidenceFormula f w := by
  rw [confidenceOf_eq, claimConfidenceFormula, jsRound_clamp_comm]

/-- More filler at a fixed word count never increases the confidence score. -/
theorem confidenceOf_anti {f1 f2 : ℕ} (w : ℕ) (hf : f1 ≤ f2) :
    confidenceOf f2 w ≤ confidenceOf f1 w := by
  rw [confidenceOf_eq, confidenceOf_eq]
  refine jsRound_mono ?_
  refine max_le_max (le_refl _) (min_le_min (le_refl _) ?_)
  have : (if 0 < w then (f1 : ℚ) / w else 0) ≤ (if 0 < w then (f2 : ℚ) / w else 0) := by
    split_ifs with hw
    · apply div_le_div_of_nonneg_right ?_ (by positivity)
      exact_mod_cast hf
    · exact le_refl 0
  nlinarith [this]

/-- C7: holding the word count fixed, strictly more filler words never yield
a higher confidence score, and on non-empty input the stored confidence score
is exactly the claim's formula
`clamp(round(100 - 200 * fillerWordCount / wordCount), 20, 100)`. -/
theorem c7_confidence_monotonicity :
    (∀ (t1 : Option String) (h1 : List ConversationTurn) (m1 : SessionMetrics)
        (t2 : Option String) (h2 : List ConversationTurn) (m2 : SessionMetrics),
        analyzeSessionE t1 h1 = .ok m1 → analyzeSessionE t2 h2 = .ok m2 →
        m1.wordCount = m2.wordCount → m1.fillerWordCount < m2.fillerWordCount →
        m2.confidenceScore ≤ m1.confidenceScore) ∧
    (∀ (t : Option String) (h : List ConversationTurn) (m : SessionMetrics),
        analyzeSessionE t h = .ok m → (jsTruthy t = true ∨ h ≠ []) →
        m.confidenceScore = claimConfidenceFormula m.fillerWordCount m.wordCount) := by
  constructor
  · intro t1 h1 m1 t2 h2 m2 hm1 hm2 hw hf
    rcases analyzeSessionE_ok_cases hm2 with rfl | rfl
    · exact absurd hf (by simp [defaultMetrics])
    · rcases analyzeSessionE_ok_cases hm1 with rfl | rfl
      · exfalso
        have h0 : (computeMetrics t2 h2).wordCount = 0 := by
          rw [← hw]
          rfl
        have := computeMetrics_filler_le t2 h2
        rw [h0] at this
        have hz : (computeMetrics t2 h2).fillerWordCount = 0 := Nat.le_zero.mp this
        rw [hz] at hf
        exact Nat.not_lt_zero _ hf
      · rw [computeMetrics_confidenceScore, computeMetrics_confidenceScore,
          ← computeMetrics_fillerWordCount, ← computeMetrics_fillerWordCount,
          ← computeMetrics_wordCount, ← computeMetrics_wordCount, hw]
        exact confidenceOf_anti _ (le_of_lt hf)
  · intro t h m hm hne
    have := analyzeSessionE_ok_nonempty hm hne
    subst this
    rw [computeMetrics_confidenceScore, ← computeMetrics_fillerWordCount,
      ← computeMetrics_wordCount]
    exact confidenceOf_eq_claimFormula _ _

/-- C4: with a nonempty history the talk-time ratio is
`round(100 * trainee turns / all turns)` (the 4-turn alternating scenario
yields 50); the transcript-only variant instead derives it from the word
count, clamped to `[20, 80]`. -/
theorem c4_talk_time_ratio :
    (∀ (t : Option String) (h : List ConversationTurn) (m : SessionMetrics),
        analyzeSessionE t h = .ok m → h ≠ [] →
        m.talkTimeRatio = jsRound (100 * ((userTurns h).length : ℚ) / h.length)) ∧
    (∃ m, analyzeSessionE none
        [⟨"user", some "Hi"⟩, ⟨"ai", some "Hello"⟩,
         ⟨"user", some "How are you?"⟩, ⟨"ai", some "Fine"⟩] = .ok m ∧
        m.talkTimeRatio = 50) ∧
    (∀ s : String, s ≠ "" →
        (analyzeSessionT (some s)).talkTimeRatio =
          jsRound (min 80 (max 20 (((analyzeSessionT (some s)).wordCount : ℚ) / 10))) ∧
        20 ≤ (analyzeSessionT (some s)).talkTimeRatio ∧
        (analyzeSessionT (some s)).talkTimeRatio ≤ 80) := by
  refine ⟨?_, ⟨_, rfl, by decide⟩, ?_⟩
  · intro t h m hm hne
    have := analyzeSessionE_ok_nonempty hm (Or.inr hne)
    subst this
    rw [computeMetrics_talkTimeRatio,
      talkTimeOf_eq _ _ (List.length_pos.mpr hne)]
    congr 1
    ring
  · intro s hs
    have htr : (!jsTruthy (some s)) = false := by
      simp [jsTruthy, hs]
    have hT : analyzeSessionT (some s) =
        { talkTimeRatio := jsRound (min 80 (max 20
            (Rat.divInt ((splitRuns isWsChar (lowerStr s.data)).length : ℤ) 10)))
          fillerWordCount := fillerCountOf (splitRuns isWsChar (lowerStr s.data))
          confidenceScore := jsRound (max 20 (min 100
            (Rat.divInt (100 * ((splitRuns isWsChar (lowerStr s.data)).length : ℤ) -
              200 * ((fillerCountOf (splitRuns isWsChar (lowerStr s.data))) : ℤ))
              (splitRuns isWsChar (lowerStr s.data)).length)))
          wordCount := (splitRuns isWsChar (lowerStr s.data)).length
          averageSentenceLength := aslStored (splitRuns isWsChar (lowerStr s.data)).length
            (sentencesOf s).length } := by
      rw [analyzeSessionT, htr]
      rfl
    have hdiv : (Rat.divInt ((splitRuns isWsChar (lowerStr s.data)).length : ℤ) 10) =
        (((splitRuns isWsChar (lowerStr s.data)).length : ℚ) / 10) := by
      rw [Rat.divInt_eq_div]
      norm_num
    refine ⟨?_, ?_, ?_⟩
    · rw [hT]
      rw [hdiv]
    · rw [hT]
      refine le_jsRound_of_le ?_
      push_cast
      exact le_min (by norm_num) (le_max_left _ _)
    · rw [hT]
      refine jsRound_le_of_le ?_
      push_cast
      exact min_le_left _ _

/-- C5 counterexample: the trainee turn `"Do you measure success?"` matches
the claim's keyword set (which includes `measure` and `success`) but not the
code's, so the code counts 0 discovery questions where the claim demands 1. -/
theorem c5_counterexample :
    ∃ m, analyzeSessionE none [⟨"user", some "Do you measure success?"⟩] = .ok m ∧
      m.discovery_questions_count = some 0 ∧
      claimDiscoveryCount [⟨"user", some "Do you measure success?"⟩] = 1 ∧
      m.discovery_questions_count ≠
        some (claimDiscoveryCount [⟨"user", some "Do you measure success?"⟩]) :=
  ⟨_, rfl, by decide, by decide, by decide⟩

/-- C5 (amended): the discovery-question count of `analyzeSession` uses the
keyword set without `measure`/`success` (`discoveryKeywords`); it counts the
trainee turns containing `?` and such a keyword, is bounded by the count
under the claim's larger keyword set, and the budget scenario yields count 1
with `discovery_score = 2 ≥ 2`. -/
theorem c5_discovery_count :
    (∀ (t : Option String) (h : List ConversationTurn) (m : SessionMetrics),
        analyzeSessionE t h = .ok m → (jsTruthy t = true ∨ h ≠ []) →
        m.discovery_questions_count = some (discoveryCount h) ∧
        m.discovery_score = discoveryScoreOf (discoveryCount h)) ∧
    (∀ h : List ConversationTurn, discoveryCount h ≤ claimDiscoveryCount h) ∧
    (∃ m, analyzeSessionE none
        [⟨"user", some "What is your current budget for this?"⟩] = .ok m ∧
        m.discovery_questions_count = some 1 ∧ 2 ≤ m.discovery_score) := by
  refine ⟨?_, ?_, ⟨_, rfl, by decide, by decide⟩⟩
  · intro t h m hm hne
    have := analyzeSessionE_ok_nonempty hm hne
    subst this
    exact ⟨(computeMetrics_counts t h).1, (computeMetrics_scores t h).1⟩
  · intro h
    refine List.Sublist.length_le (List.monotone_filter_right _ ?_)
    intro tu htu
    rw [claimIsDiscoveryQuestion]
    rw [isDiscoveryQuestion] at htu
    rcases Bool.and_eq_true_iff.mp htu with ⟨hq, hk⟩
    rw [hq, Bool.true_and]
    obtain ⟨k, hkmem, hksub⟩ := List.any_eq_true.mp hk
    refine List.any_eq_true.mpr ⟨k, ?_, hksub⟩
    fin_cases hkmem <;> decide

/-! Regex-engine lemmas: destructors for `run`'s outcome lists. -/

theorem lastPrev_nil (prev : Option Char) : lastPrev prev [] = prev := rfl

theorem lastPrev_cons (prev : Option Char) (c : Char) (m : List Char) :
    lastPrev prev (c :: m) = lastPrev (some c) m := by
  cases m with
  | nil => rfl
  | cons d l =>
    unfold lastPrev
    rw [List.getLast?_cons_cons]
    cases hgl : (d :: l).getLast? with
    | none => simp at hgl
    | some x => simp [hgl]

theorem lastPrev_append (prev : Option Char) (a b : List Char) :
    lastPrev prev (a ++ b) = lastPrev (lastPrev prev a) b := by
  induction a generalizing prev with
  | nil => simp [lastPrev_nil]
  | cons c l ih =>
    rw [List.cons_append, lastPrev_cons, lastPrev_cons, ih]

theorem mem_runStar {p : Char → Bool} {prev q : Option Char} {s r : List Char} :
    (q, r) ∈ runStar p prev s ↔
      ∃ m, s = m ++ r ∧ (∀ c ∈ m, p c = true) ∧ q = lastPrev prev m := by
  induction s generalizing prev with
  | nil =>
    constructor
    · intro hmem
      simp only [runStar, List.mem_singleton] at hmem
      have hq : q = prev := congrArg Prod.fst hmem
      have hr : r = [] := congrArg Prod.snd hmem
      exact ⟨[], by rw [hr]; rfl, by simp, by rw [hq, lastPrev_nil]⟩
    · rintro ⟨m, hm, -, hq⟩
      have hmnil : m = [] := by
        cases m with
        | nil => rfl
        | cons x xs => exact absurd hm (by simp)
      have hrnil : r = [] := by
        rw [hmnil] at hm
        simpa using hm
      simp only [runStar, List.mem_singleton]
      rw [hq, hmnil, lastPrev_nil, hrnil]
  | cons c cs ih =>
    simp only [runStar]
    split_ifs with hc
    · rw [List.mem_append]
      constructor
      · rintro (hmem | hmem)
        · obtain ⟨m, hm, hall, hq⟩ := ih.mp hmem
          refine ⟨c :: m, by simp [hm], ?_, by rw [lastPrev_cons]; exact hq⟩
          intro x hx
          rcases List.mem_cons.mp hx with rfl | hx
          · exact hc
          · exact hall x hx
        · simp only [List.mem_singleton] at hmem
          have hq : q = prev := congrArg Prod.fst hmem
          have hr : r = c :: cs := congrArg Prod.snd hmem
          exact ⟨[], by rw [hr]; rfl, by simp, by rw [hq, lastPrev_nil]⟩
      · rintro ⟨m, hm, hall, hq⟩
        cases m with
        | nil =>
          right
          simp only [List.nil_append] at hm
          simp only [List.mem_singleton]
          rw [hq, lastPrev_nil, ← hm]
        | cons x xs =>
          left
          rw [List.cons_append] at hm
          injection hm with hx hm'
          refine ih.mpr ⟨xs, hm', ?_, ?_⟩
          · intro y hy
            exact hall y (List.mem_cons.mpr (Or.inr hy))
          · rw [lastPrev_cons] at hq
            rw [hx]
            exact hq
    · constructor
      · intro hmem
        simp only [List.mem_singleton] at hmem
        have hq : q = prev := congrArg Prod.fst hmem
        have hr : r = c :: cs := congrArg Prod.snd hmem
        exact ⟨[], by rw [hr]; rfl, by simp, by rw [hq, lastPrev_nil]⟩
      · rintro ⟨m, hm, hall, hq⟩
        cases m with
        | nil =>
          simp only [List.nil_append] at hm
          simp only [List.mem_singleton]
          rw [hq, lastPrev_nil, ← hm]
        | cons x xs =>
          exfalso
          rw [List.cons_append] at hm
          injection hm with hx hm'
          rw [hx] at hc
          exact hc (hall x (List.mem_cons.mpr (Or.inl rfl)))

theorem mem_run_eps {prev q : Option Char} {s r : List Char} :
    (q, r) ∈ run .eps prev s ↔ q = prev ∧ r = s := by
  simp [run, Prod.ext_iff]

theorem mem_run_cls {p : Char → Bool} {prev q : Option Char} {s r : List Char} :
    (q, r) ∈ run (.cls p) prev s ↔
      ∃ c, s = c :: r ∧ p c = true ∧ q = some c := by
  cases s with
  | nil => simp [run]
  | cons c cs =>
    simp only [run]
    split_ifs with hc
    · simp only [List.mem_singleton, Prod.mk.injEq]
      constructor
      · rintro ⟨rfl, rfl⟩
        exact ⟨c, rfl, hc, rfl⟩
      · rintro ⟨d, hd, hp, rfl⟩
        obtain ⟨rfl, rfl⟩ : d = c ∧ cs = r := by
          exact ⟨(List.cons.injEq _ _ _ _ ▸ hd).1.symm, (List.cons.injEq _ _ _ _ ▸ hd).2⟩
        exact ⟨rfl, rfl⟩
    · simp only [List.not_mem_nil, false_iff]
      rintro ⟨d, hd, hp, rfl⟩
      obtain rfl : d = c := (List.cons.injEq _ _ _ _ ▸ hd).1.symm
      exact hc hp

theorem mem_run_wb {prev q : Option Char} {s r : List Char} :
    (q, r) ∈ run .wb prev s ↔ wordBoundary prev s = true ∧ q = prev ∧ r = s := by
  unfold run
  split_ifs with hb
  · constructor
    · intro hmem
      simp only [List.mem_singleton] at hmem
      exact ⟨hb, congrArg Prod.fst hmem, congrArg Prod.snd hmem⟩
    · rintro ⟨-, rfl, rfl⟩
      simp
  · constructor
    · intro hmem
      simp at hmem
    · rintro ⟨hb2, -, -⟩
      exact absurd hb2 hb

theorem mem_run_opt {a : RE} {prev q : Option Char} {s r : List Char} :
    (q, r) ∈ run (.opt a) prev s ↔
      (q, r) ∈ run a prev s ∨ (q = prev ∧ r = s) := by
  simp [run, Prod.ext_iff]

theorem mem_run_seq {a b : RE} {prev q : Option Char} {s r : List Char} :
    (q, r) ∈ run (.seq a b) prev s ↔
      ∃ q1 r1, (q1, r1) ∈ run a prev s ∧ (q, r) ∈ run b q1 r1 := by
  simp only [run, List.mem_flatMap, Prod.exists]

theorem mem_run_star {p : Char → Bool} {prev q : Option Char} {s r : List Char} :
    (q, r) ∈ run (.star p) prev s ↔
      ∃ m, s = m ++ r ∧ (∀ c ∈ m, p c = true) ∧ q = lastPrev prev m :=
  mem_runStar

/-- Every outcome consumes a prefix whose characters lie in the pattern's
alphabet, tracks the previous character correctly, and is at least the
pattern's minimal length. -/
theorem mem_run_decomp {re : RE} {prev q : Option Char} {s r : List Char}
    (h : (q, r) ∈ run re prev s) :
    ∃ m, s = m ++ r ∧ (∀ c ∈ m, alphabetOf re c = true) ∧ q = lastPrev prev m ∧
      minLen re ≤ m.length := by
  induction re generalizing prev q s r with
  | eps =>
    obtain ⟨rfl, rfl⟩ := mem_run_eps.mp h
    exact ⟨[], rfl, by simp, rfl, by simp [minLen]⟩
  | cls p =>
    obtain ⟨c, rfl, hp, rfl⟩ := mem_run_cls.mp h
    exact ⟨[c], rfl, by simpa [alphabetOf] using hp, rfl, by simp [minLen]⟩
  | seq a b iha ihb =>
    obtain ⟨q1, r1, h1, h2⟩ := mem_run_seq.mp h
    obtain ⟨ma, rfl, halla, hqa, hlena⟩ := iha h1
    obtain ⟨mb, rfl, hallb, hqb, hlenb⟩ := ihb h2
    refine ⟨ma ++ mb, by rw [List.append_assoc], ?_, ?_, ?_⟩
    · intro c hc
      rcases List.mem_append.mp hc with hc | hc
      · simp [alphabetOf, halla c hc]
      · simp [alphabetOf, hallb c hc]
    · rw [hqb, hqa, lastPrev_append]
    · simp only [List.length_append, minLen]
      omega
  | opt a iha =>
    rcases mem_run_opt.mp h with h1 | ⟨rfl, rfl⟩
    · obtain ⟨m, rfl, hall, hq, _⟩ := iha h1
      exact ⟨m, rfl, hall, hq, by simp [minLen]⟩
    · exact ⟨[], rfl, by simp, rfl, by simp [minLen]⟩
  | star p =>
    obtain ⟨m, rfl, hall, hq⟩ := mem_run_star.mp h
    exact ⟨m, rfl, hall, hq, by simp [minLen]⟩
  | wb =>
    obtain ⟨_, rfl, rfl⟩ := mem_run_wb.mp h
    exact ⟨[], rfl, by simp, rfl, by simp [minLen]⟩

theorem isWordOpt_lastPrev_congr {p1 p2 : Option Char} (m : List Char)
    (hw : isWordOpt p1 = isWordOpt p2) :
    isWordOpt (lastPrev p1 m) = isWordOpt (lastPrev p2 m) := by
  cases hgl : m.getLast? with
  | none => simpa [lastPrev, hgl] using hw
  | some x => simp [lastPrev, hgl]

/-- A match's existence depends on the preceding character only through its
word-character status. -/
theorem mem_run_prevCongr {re : RE} {p1 p2 q : Option Char} {s r : List Char}
    (hw : isWordOpt p1 = isWordOpt p2) (h : (q, r) ∈ run re p1 s) :
    ∃ q2, (q2, r) ∈ run re p2 s ∧ isWordOpt q2 = isWordOpt q := by
  induction re generalizing p1 p2 q s r with
  | eps =>
    obtain ⟨rfl, rfl⟩ := mem_run_eps.mp h
    exact ⟨p2, mem_run_eps.mpr ⟨rfl, rfl⟩, hw.symm⟩
  | cls p =>
    obtain ⟨c, rfl, hp, rfl⟩ := mem_run_cls.mp h
    exact ⟨some c, mem_run_cls.mpr ⟨c, rfl, hp, rfl⟩, rfl⟩
  | seq a b iha ihb =>
    obtain ⟨q1, r1, h1, h2⟩ := mem_run_seq.mp h
    obtain ⟨q1', h1', hw1⟩ := iha hw h1
    obtain ⟨q2', h2', hw2⟩ := ihb hw1.symm h2
    exact ⟨q2', mem_run_seq.mpr ⟨q1', r1, h1', h2'⟩, hw2⟩
  | opt a iha =>
    rcases mem_run_opt.mp h with h1 | ⟨rfl, rfl⟩
    · obtain ⟨q2, h2, hw2⟩ := iha hw h1
      exact ⟨q2, mem_run_opt.mpr (Or.inl h2), hw2⟩
    · exact ⟨p2, mem_run_opt.mpr (Or.inr ⟨rfl, rfl⟩), hw.symm⟩
  | star p =>
    obtain ⟨m, rfl, hall, rfl⟩ := mem_run_star.mp h
    exact ⟨lastPrev p2 m, mem_run_star.mpr ⟨m, rfl, hall, rfl⟩,
      isWordOpt_lastPrev_congr m hw.symm⟩
  | wb =>
    obtain ⟨hb, rfl, rfl⟩ := mem_run_wb.mp h
    refine ⟨p2, mem_run_wb.mpr ⟨?_, rfl, rfl⟩, hw.symm⟩
    rw [wordBoundary, ← hw]
    exact hb

/-- Emptiness of the outcome list transfers across word-equivalent previous
characters. -/
theorem run_nil_prevCongr {re : RE} {p1 p2 : Option Char} {s : List Char}
    (hw : isWordOpt p1 = isWordOpt p2) (h : run re p1 s = []) :
    run re p2 s = [] := by
  by_contra hne
  obtain ⟨⟨q, r⟩, hmem⟩ := List.exists_mem_of_ne_nil _ hne
  obtain ⟨q2, hmem2, -⟩ := mem_run_prevCongr hw.symm hmem
  rw [h] at hmem2
  exact List.not_mem_nil _ hmem2

/-- Locality: a match that consumes `m` survives any replacement of the
remaining input that preserves the word-character status of the next
character (assertions only look one character past the consumed prefix). -/
theorem mem_run_locality {re : RE} :
    ∀ {prev q : Option Char} {m r1 r2 : List Char},
      (q, r1) ∈ run re prev (m ++ r1) →
      isWordOpt r1.head? = isWordOpt r2.head? →
      ∃ q2, (q2, r2) ∈ run re prev (m ++ r2) := by
  induction re with
  | eps =>
    intro prev q m r1 r2 h hw
    obtain ⟨hq, hs⟩ := mem_run_eps.mp h
    obtain rfl : m = [] := by
      have := congrArg List.length hs
      simp only [List.length_append] at this
      exact List.eq_nil_of_length_eq_zero (by omega)
    exact ⟨prev, mem_run_eps.mpr ⟨rfl, by simp⟩⟩
  | cls p =>
    intro prev q m r1 r2 h hw
    obtain ⟨c, hs, hp, hq⟩ := mem_run_cls.mp h
    obtain ⟨x, rfl⟩ : ∃ x, m = [x] := by
      have := congrArg List.length hs
      simp only [List.length_append, List.length_cons] at this
      exact List.length_eq_one.mp (by omega)
    obtain rfl : x = c := by simpa using congrArg List.head? hs
    exact ⟨some x, mem_run_cls.mpr ⟨x, rfl, hp, rfl⟩⟩
  | seq a b iha ihb =>
    intro prev q m r1 r2 h hw
    obtain ⟨q1, rmid, h1, h2⟩ := mem_run_seq.mp h
    obtain ⟨ma, hsa, -, hqa, -⟩ := mem_run_decomp h1
    obtain ⟨mb, hsb, -, -, -⟩ := mem_run_decomp h2
    subst hsb
    obtain rfl : m = ma ++ mb := by
      have h0 : m ++ r1 = (ma ++ mb) ++ r1 := by
        rw [hsa, List.append_assoc]
      exact List.append_cancel_right h0
    rw [hsa] at h1
    obtain ⟨q2b, h2'⟩ := ihb h2 hw
    have hwmid : isWordOpt (mb ++ r1).head? = isWordOpt (mb ++ r2).head? := by
      cases mb with
      | nil => simpa using hw
      | cons y ys => simp
    obtain ⟨q1', h1'⟩ := iha h1 hwmid
    have hq1' : q1' = q1 := by
      obtain ⟨ma', hsa', -, hqa', -⟩ := mem_run_decomp h1'
      obtain rfl : ma' = ma := List.append_cancel_right hsa'.symm
      rw [hqa', hqa]
    rw [hq1'] at h1'
    refine ⟨q2b, mem_run_seq.mpr ⟨q1, mb ++ r2, ?_, h2'⟩⟩
    rw [List.append_assoc]
    exact h1'
  | opt a iha =>
    intro prev q m r1 r2 h hw
    rcases mem_run_opt.mp h with h1 | ⟨hq, hs⟩
    · obtain ⟨q2, h2⟩ := iha h1 hw
      exact ⟨q2, mem_run_opt.mpr (Or.inl h2)⟩
    · obtain rfl : m = [] := by
        have := congrArg List.length hs
        simp only [List.length_append] at this
        exact List.eq_nil_of_length_eq_zero (by omega)
      exact ⟨prev, mem_run_opt.mpr (Or.inr ⟨rfl, by simp⟩)⟩
  | star p =>
    intro prev q m r1 r2 h hw
    obtain ⟨m', hs, hall, hq⟩ := mem_run_star.mp h
    obtain rfl : m' = m := List.append_cancel_right hs.symm
    exact ⟨lastPrev prev m', mem_run_star.mpr ⟨m', rfl, hall, rfl⟩⟩
  | wb =>
    intro prev q m r1 r2 h hw
    obtain ⟨hb, hq, hs⟩ := mem_run_wb.mp h
    obtain rfl : m = [] := by
      have := congrArg List.length hs
      simp only [List.length_append] at this
      exact List.eq_nil_of_length_eq_zero (by omega)
    refine ⟨prev, mem_run_wb.mpr ⟨?_, rfl, by simp⟩⟩
    simp only [List.nil_append] at hb ⊢
    rw [wordBoundary, ← hw]
    simpa [wordBoundary] using hb

theorem cleanFrom_nil (re : RE) (prev : Option Char) : cleanFrom re prev [] :=
  trivial

theorem cleanFrom_cons {re : RE} {prev : Option Char} {c : Char} {rest : List Char} :
    cleanFrom re prev (c :: rest) ↔
      run re prev (c :: rest) = [] ∧ cleanFrom re (some c) rest :=
  Iff.rfl

/-- A clean region is copied unchanged by the scanner. -/
theorem scanRep_of_clean {re : RE} {repl : List Char} :
    ∀ {prev : Option Char} {s : List Char},
      cleanFrom re prev s → scanRep re repl prev s = s := by
  intro prev s
  induction s generalizing prev with
  | nil =>
    intro _
    simp [scanRep]
  | cons c rest ih =>
    intro hclean
    obtain ⟨hrun, hrest⟩ := hclean
    rw [scanRep, hrun]
    simp [ih hrest]

/-- A pattern guarded by a leading `\b` has no outcome where the boundary
fails. -/
theorem run_nil_of_no_boundary {re : RE} (hs : startsWithWb re = true)
    {prev : Option Char} {s : List Char} (hb : wordBoundary prev s = false) :
    run re prev s = [] := by
  induction re with
  | seq a b iha _ =>
    rw [startsWithWb] at hs
    simp [run, iha hs]
  | wb => simp [run, hb]
  | eps => simp [startsWithWb] at hs
  | cls p => simp [startsWithWb] at hs
  | opt a _ => simp [startsWithWb] at hs
  | star p => simp [startsWithWb] at hs

theorem mem_run_boundary_start {re : RE} (hs : startsWithWb re = true)
    {prev q : Option Char} {s r : List Char} (h : (q, r) ∈ run re prev s) :
    wordBoundary prev s = true := by
  by_contra hb
  rw [run_nil_of_no_boundary hs (Bool.not_eq_true _ ▸ hb)] at h
  exact List.not_mem_nil _ h

/-- A pattern ending in `\b` asserts the boundary between the last consumed
character and the remaining input. -/
theorem mem_run_boundary_end {re : RE} (he : endsInWb re = true) :
    ∀ {prev q : Option Char} {s r : List Char},
      (q, r) ∈ run re prev s → wordBoundary q r = true := by
  induction re with
  | seq a b _ ihb =>
    intro prev q s r h
    rw [endsInWb] at he
    obtain ⟨q1, r1, _, h2⟩ := mem_run_seq.mp h
    exact ihb he h2
  | wb =>
    intro prev q s r h
    obtain ⟨hb, rfl, rfl⟩ := mem_run_wb.mp h
    exact hb
  | eps => simp [endsInWb] at he
  | cls p => simp [endsInWb] at he
  | opt a _ => simp [endsInWb] at he
  | star p => simp [endsInWb] at he

/-- The scanner's output starts with the input's first character or with the
replacement's first character. -/
theorem scanRep_head {re : RE} {repl : List Char} (hrepl : repl ≠ [])
    (prev : Option Char) (s : List Char) :
    (scanRep re repl prev s).head? = none ∨
    (scanRep re repl prev s).head? = s.head? ∨
    (scanRep re repl prev s).head? = repl.head? := by
  cases s with
  | nil =>
    left
    simp [scanRep]
  | cons c rest =>
    rw [scanRep]
    cases hh : (run re prev (c :: rest)).head? with
    | none =>
      right; left
      simp
    | some pr =>
      right; right
      obtain ⟨p', remaining⟩ := pr
      obtain ⟨r0, rs, rfl⟩ : ∃ r0 rs, repl = r0 :: rs := by
        cases repl with
        | nil => exact absurd rfl hrepl
        | cons r0 rs => exact ⟨r0, rs, rfl⟩
      by_cases hlt : remaining.length < rest.length + 1 <;> simp [hlt]

/-- Cleanliness restricts to suffixes, with the previous character advanced
over the dropped prefix. -/
theorem cleanFrom_suffix {re : RE} :
    ∀ (m : List Char) {prev : Option Char} {r : List Char},
      cleanFrom re prev (m ++ r) → cleanFrom re (lastPrev prev m) r := by
  intro m
  induction m with
  | nil => intro prev r h; exact h
  | cons c m' ih =>
    intro prev r h
    rw [lastPrev_cons]
    exact ih h.2

/-- Structure of one scanner pass: either it copies the input unchanged, or
the input splits at the first replaced match. -/
theorem scanRep_decomp {re : RE} {repl : List Char} (hmin : 0 < minLen re) :
    ∀ (prev : Option Char) (s : List Char),
      scanRep re repl prev s = s ∨
      ∃ t mj u q1, s = t ++ mj ++ u ∧ mj ≠ [] ∧
        scanRep re repl prev s = t ++ repl ++ scanRep re repl q1 u ∧
        (q1, u) ∈ run re (lastPrev prev t) (mj ++ u) := by
  intro prev s
  induction s generalizing prev with
  | nil => exact Or.inl (by simp [scanRep])
  | cons c rest ih =>
    rw [scanRep]
    cases hh : (run re prev (c :: rest)).head? with
    | none =>
      rcases ih (some c) with h | ⟨t, mj, u, q1, hsplit, hne, hout, hmem⟩
      · exact Or.inl (by rw [h])
      · refine Or.inr ⟨c :: t, mj, u, q1, by simp [hsplit], hne, by simp [hout], ?_⟩
        rw [lastPrev_cons]
        exact hmem
    | some pr =>
      obtain ⟨p', remaining⟩ := pr
      have hmem : (p', remaining) ∈ run re prev (c :: rest) :=
        List.mem_of_mem_head? (by rw [hh]; rfl)
      obtain ⟨mj, hsplit, -, hq, hlen⟩ := mem_run_decomp hmem
      have hne : mj ≠ [] := by
        intro hnil
        rw [hnil] at hlen
        simp at hlen
        omega
      have hlt : remaining.length < rest.length + 1 := by
        have := congrArg List.length hsplit
        simp only [List.length_cons, List.length_append] at this
        have : 1 ≤ mj.length := by
          cases mj with
          | nil => exact absurd rfl hne
          | cons x xs => simp
        omega
      simp only [hlt, dif_pos]
      refine Or.inr ⟨[], mj, remaining, p', by simpa using hsplit, hne, by simp, ?_⟩
      rw [lastPrev_nil]
      rw [← hsplit]
      exact hmem

theorem mem_left_of_append_eq {m r A B : List Char} {b : Char}
    (h : m ++ r = A ++ b :: B) (hlen : A.length < m.length) : b ∈ m := by
  have h1 : (m ++ r)[A.length]? = some b := by
    rw [h]
    rw [List.getElem?_append_right (le_refl A.length)]
    simp
  rw [List.getElem?_append, if_pos hlen] at h1
  exact List.getElem?_mem h1

theorem prefix_split {m r A X : List Char} (h : m ++ r = A ++ X)
    (hlen : m.length ≤ A.length) : ∃ t2, A = m ++ t2 ∧ r = t2 ++ X := by
  refine ⟨A.drop m.length, ?_, ?_⟩
  · have hm : A.take m.length = m := by
      have h1 : (m ++ r).take m.length = m := List.take_left m r
      rw [h] at h1
      rwa [List.take_append_of_le_length hlen] at h1
    conv_lhs => rw [← List.take_append_drop m.length A]
    rw [hm]
  · have hA : A = m ++ A.drop m.length := by
      have hm : A.take m.length = m := by
        have h1 : (m ++ r).take m.length = m := List.take_left m r
        rw [h] at h1
        rwa [List.take_append_of_le_length hlen] at h1
      conv_lhs => rw [← List.take_append_drop m.length A]
      rw [hm]
    rw [hA, List.append_assoc] at h
    exact List.append_cancel_left h

/-- Prepending a block-clean region (every suffix position of `a` admits no
match, whatever precedes it) preserves cleanliness. -/
theorem cleanFrom_append_blocks {re : RE} {b : List Char} :
    ∀ (a : List Char) (prev : Option Char),
      (∀ (prev' : Option Char) (k : ℕ), k < a.length →
        run re prev' (a.drop k ++ b) = []) →
      cleanFrom re (lastPrev prev a) b →
      cleanFrom re prev (a ++ b) := by
  intro a
  induction a with
  | nil => intro prev _ hb; exact hb
  | cons c a' ih =>
    intro prev ha hb
    refine ⟨?_, ?_⟩
    · have := ha prev 0 (by simp)
      simpa using this
    · rw [lastPrev_cons] at hb
      refine ih (some c) ?_ hb
      intro prev' k hk
      have := ha prev' (k + 1) (by simpa using Nat.succ_lt_succ hk)
      simpa using this

/-- Core preservation lemma: one pass of pattern `rej` leaves no match of
pattern `rei` anywhere in its output, provided the input was already
`rei`-clean (or `rei` is `rej` itself, whose matches the pass removes), the
placeholder blocks `rei` at each of its interior positions, and both
patterns are `\b`-guarded on both sides. -/
theorem scanRep_clean_core {rei rej : RE} {replj : List Char}
    (hstarti : startsWithWb rei = true) (hendi : endsInWb rei = true)
    (hstartj : startsWithWb rej = true) (hendj : endsInWb rej = true)
    (hminj : 0 < minLen rej)
    (hheadj : ∃ b bs, replj = b :: bs ∧ alphabetOf rei b = false ∧ isWordChar b = false)
    (hlastj : ∃ z, replj.getLast? = some z ∧ isWordChar z = false)
    (hblock : ∀ (prev' : Option Char) (k : ℕ) (rest' : List Char),
      k < replj.length → run rei prev' (replj.drop k ++ rest') = []) :
    ∀ (n : ℕ) (prev : Option Char) (s : List Char), s.length ≤ n →
      rei = rej ∨ cleanFrom rei prev s →
      cleanFrom rei prev (scanRep rej replj prev s) := by
  intro n
  induction n with
  | zero =>
    intro prev s hlen hpre
    obtain rfl : s = [] := List.eq_nil_of_length_eq_zero (by omega)
    simpa [scanRep] using cleanFrom_nil rei prev
  | succ n ih =>
    intro prev s hlen hpre
    cases s with
    | nil => simpa [scanRep] using cleanFrom_nil rei prev
    | cons c rest =>
      rw [scanRep]
      cases hh : (run rej prev (c :: rest)).head? with
      | none =>
        have hrun_in : run rei prev (c :: rest) = [] := by
          rcases hpre with rfl | hclean
          · exact List.head?_eq_none_iff.mp hh
          · exact hclean.1
        have hpre' : rei = rej ∨ cleanFrom rei (some c) rest := by
          rcases hpre with rfl | hclean
          · exact Or.inl rfl
          · exact Or.inr hclean.2
        have hclean' : cleanFrom rei (some c) (scanRep rej replj (some c) rest) :=
          ih (some c) rest (by simpa using hlen) hpre'
        refine ⟨?_, hclean'⟩
        rcases scanRep_decomp hminj (some c) rest with heq | ⟨t, mj, u, q1, hsplit, hmjne, hout, hmemj⟩
        · rw [heq]
          exact hrun_in
        · rw [hout]
          by_contra hne
          obtain ⟨⟨q, r⟩, hmemi⟩ := List.exists_mem_of_ne_nil _ hne
          obtain ⟨m0, hm0, hchars, hqm, -⟩ := mem_run_decomp hmemi
          obtain ⟨b, bs, hrepl, hba, hbw⟩ := hheadj
          have hm0' : m0 ++ r = (c :: t) ++ b :: (bs ++ scanRep rej replj q1 u) := by
            rw [← hm0, hrepl]
            simp
          have hm0len : m0.length ≤ (c :: t).length := by
            by_contra hgt
            push_neg at hgt
            have hb_in : b ∈ m0 := mem_left_of_append_eq hm0' hgt
            have := hchars b hb_in
            rw [hba] at this
            exact absurd this (by simp)
          obtain ⟨t2, hct, hr⟩ := prefix_split hm0' hm0len
          have hword : isWordOpt r.head? = isWordOpt (t2 ++ (mj ++ u)).head? := by
            cases t2 with
            | cons d ds =>
              rw [hr]
              simp
            | nil =>
              obtain ⟨mjh, mjt, rfl⟩ : ∃ h' t', mj = h' :: t' := by
                cases mj with
                | nil => exact absurd rfl hmjne
                | cons x xs => exact ⟨x, xs, rfl⟩
              have hrhd : r.head? = some b := by
                rw [hr]
                simp
              have hmw : isWordChar mjh = false := by
                by_contra hmw'
                rw [Bool.not_eq_false] at hmw'
                have hbs := mem_run_boundary_start hstartj hmemj
                rw [wordBoundary] at hbs
                have hhd : ((mjh :: mjt) ++ u).head? = some mjh := by simp
                rw [hhd] at hbs
                have h1 : isWordOpt (lastPrev (some c) t) = false := by
                  cases hlp : isWordOpt (lastPrev (some c) t) with
                  | false => rfl
                  | true =>
                    rw [hlp] at hbs
                    simp [isWordOpt, hmw'] at hbs
                have hbe := mem_run_boundary_end hendi hmemi
                rw [wordBoundary, hrhd] at hbe
                have h2 : isWordOpt q = true := by
                  cases hq2 : isWordOpt q with
                  | true => rfl
                  | false =>
                    rw [hq2] at hbe
                    simp [isWordOpt, hbw] at hbe
                have hm0eq : m0 = c :: t := by
                  have := hct
                  simpa using this.symm
                rw [hqm, hm0eq, lastPrev_cons, h1] at h2
                exact Bool.false_ne_true h2
              rw [hrhd]
              simp [isWordOpt, hbw, hmw]
          have hmemi' : (q, r) ∈ run rei prev (m0 ++ r) := by
            rw [← hm0]
            exact hmemi
          obtain ⟨q2, hmem2⟩ := mem_run_locality hmemi' hword
          have hfinal : m0 ++ (t2 ++ (mj ++ u)) = c :: rest := by
            rw [hsplit, ← List.append_assoc, ← hct]
            simp
          rw [hfinal] at hmem2
          rw [hrun_in] at hmem2
          exact List.not_mem_nil _ hmem2
      | some pr =>
        obtain ⟨p', remaining⟩ := pr
        have hmem : (p', remaining) ∈ run rej prev (c :: rest) :=
          List.mem_of_mem_head? (by rw [hh]; rfl)
        obtain ⟨mj, hsplit, -, hq, hlenj⟩ := mem_run_decomp hmem
        have hmjne : mj ≠ [] := by
          intro hnil
          rw [hnil] at hlenj
          simp only [List.length_nil] at hlenj
          omega
        have hlt : remaining.length < rest.length + 1 := by
          have hl := congrArg List.length hsplit
          simp only [List.length_cons, List.length_append] at hl
          have h1 : 1 ≤ mj.length := by
            cases mj with
            | nil => exact absurd rfl hmjne
            | cons x xs => simp
          omega
        simp only [hlt, dif_pos]
        have hpre' : rei = rej ∨ cleanFrom rei p' remaining := by
          rcases hpre with rfl | hclean
          · exact Or.inl rfl
          · right
            have h1 : cleanFrom rei (lastPrev prev mj) remaining := by
              refine cleanFrom_suffix mj ?_
              rw [← hsplit]
              exact hclean
            rwa [← hq] at h1
        have hclean' : cleanFrom rei p' (scanRep rej replj p' remaining) :=
          ih p' remaining (by simp only [List.length_cons] at hlen; omega) hpre'
        have hbound : wordBoundary p' remaining = true := mem_run_boundary_end hendj hmem
        obtain ⟨z, hz, hzw⟩ := hlastj
        have hcleanz : cleanFrom rei (some z) (scanRep rej replj p' remaining) := by
          cases hoc : scanRep rej replj p' remaining with
          | nil => exact cleanFrom_nil _ _
          | cons y tail =>
            rw [hoc] at hclean'
            refine ⟨?_, hclean'.2⟩
            by_cases hpw : isWordOpt p' = true
            · have hyw : isWordChar y = false := by
                have hh2 := @scanRep_head rej replj
                  (by rintro rfl; obtain ⟨b, bs, h, -, -⟩ := hheadj; exact List.noConfusion h)
                  p' remaining
                rw [hoc] at hh2
                rcases hh2 with h0 | h0 | h0
                · simp at h0
                · have hro : isWordOpt remaining.head? = false := by
                    rw [wordBoundary, hpw] at hbound
                    cases hrw : isWordOpt remaining.head? with
                    | false => rfl
                    | true =>
                      rw [hrw] at hbound
                      simp at hbound
                  rw [← h0] at hro
                  simpa [isWordOpt] using hro
                · obtain ⟨b, bs, hrepl, -, hbw⟩ := hheadj
                  rw [hrepl] at h0
                  simp only [List.head?_cons] at h0
                  obtain rfl : y = b := by simpa using h0
                  exact hbw
              apply run_nil_of_no_boundary hstarti
              simp [wordBoundary, isWordOpt, hzw, hyw]
            · refine run_nil_prevCongr ?_ hclean'.1
              simp only [isWordOpt]
              rw [hzw]
              exact Bool.not_eq_true _ ▸ hpw
        apply cleanFrom_append_blocks replj prev
        · intro prev' k hk
          exact hblock prev' k _ hk
        · have hlp : lastPrev prev replj = some z := by
            simp [lastPrev, hz]
          rw [hlp]
          exact hcleanz

/-- A pattern that must consume at least one character has no outcome when
the first input character is outside its alphabet. -/
theorem run_nil_of_alphabet_head {re : RE} (hmin : 0 < minLen re)
    {prev : Option Char} {d : Char} {rest : List Char}
    (hd : alphabetOf re d = false) : run re prev (d :: rest) = [] := by
  by_contra hne
  obtain ⟨⟨q, r⟩, hmem⟩ := List.exists_mem_of_ne_nil _ hne
  obtain ⟨m, hm, hchars, -, hlen⟩ := mem_run_decomp hmem
  cases m with
  | nil =>
    simp only [List.length_nil] at hlen
    omega
  | cons x xs =>
    have hx : d = x := by simpa using congrArg List.head? hm
    have h1 := hchars x (List.mem_cons_self x xs)
    rw [← hx, hd] at h1
    simp at h1

theorem drop_ne_nil_of_lt {l : List Char} {k : ℕ} (hk : k < l.length) :
    l.drop k ≠ [] := by
  intro h
  have := congrArg List.length h
  simp only [List.length_drop, List.length_nil] at this
  omega

theorem getLast?_drop_of_lt {l : List Char} :
    ∀ {k : ℕ}, k < l.length → (l.drop k).getLast? = l.getLast? := by
  induction l with
  | nil =>
    intro k hk
    simp at hk
  | cons c t ih =>
    intro k hk
    cases k with
    | zero => simp
    | succ k' =>
      simp only [List.drop_succ_cons]
      have hk' : k' < t.length := by simpa using hk
      rw [ih hk']
      cases t with
      | nil => simp at hk'
      | cons d t' => rw [List.getLast?_cons_cons]

theorem mem_of_getLast?_eq {l : List Char} {z : Char} (h : l.getLast? = some z) :
    z ∈ l := by
  induction l with
  | nil => simp at h
  | cons c t ih =>
    cases t with
    | nil =>
      simp only [List.getLast?_singleton] at h
      obtain rfl : c = z := by simpa using h
      simp
    | cons d t' =>
      rw [List.getLast?_cons_cons] at h
      exact List.mem_cons_of_mem c (ih h)

theorem exists_getLast?_of_ne_nil {l : List Char} (h : l ≠ []) :
    ∃ z, l.getLast? = some z := by
  induction l with
  | nil => exact absurd rfl h
  | cons c t ih =>
    cases t with
    | nil => exact ⟨c, by simp⟩
    | cons d t' =>
      obtain ⟨z, hz⟩ := ih (by simp)
      exact ⟨z, by rw [List.getLast?_cons_cons]; exact hz⟩

/-- Alphabet gate: a mandatory-consumption pattern cannot match starting at
any position of a region whose characters all lie outside its alphabet. -/
theorem hblock_of_alphabet {re : RE} (hmin : 0 < minLen re) {repl : List Char}
    (hall : ∀ c ∈ repl, alphabetOf re c = false) :
    ∀ (prev' : Option Char) (k : ℕ) (rest' : List Char),
      k < repl.length → run re prev' (repl.drop k ++ rest') = [] := by
  intro prev' k rest' hk
  cases hd : repl.drop k with
  | nil => exact absurd hd (drop_ne_nil_of_lt hk)
  | cons d ds =>
    rw [List.cons_append]
    refine run_nil_of_alphabet_head hmin (hall d ?_)
    refine List.drop_subset k repl ?_
    rw [hd]
    exact List.mem_cons_self d ds

/-- Every email match consumes a nonempty local part followed by `'@'`. -/
theorem run_email_shape {prev q : Option Char} {s r : List Char}
    (h : (q, r) ∈ run emailRE prev s) :
    ∃ m1 t2, s = m1 ++ '@' :: t2 ∧ m1 ≠ [] ∧ ∀ c ∈ m1, emailLocalChar c = true := by
  rw [emailRE] at h
  obtain ⟨q1, r1, h1, h2⟩ := mem_run_seq.mp h
  obtain ⟨-, rfl, rfl⟩ := mem_run_wb.mp h1
  obtain ⟨q2, r2, h3, h4⟩ := mem_run_seq.mp h2
  rw [rePlus] at h3
  obtain ⟨q3, r3, h5, h6⟩ := mem_run_seq.mp h3
  obtain ⟨c0, rfl, hc0, rfl⟩ := mem_run_cls.mp h5
  obtain ⟨m, rfl, hmchars, rfl⟩ := mem_run_star.mp h6
  obtain ⟨q4, r4, h7, h8⟩ := mem_run_seq.mp h4
  obtain ⟨a, rfl, ha, rfl⟩ := mem_run_cls.mp h7
  have ha' : a = '@' := by simpa using ha
  refine ⟨c0 :: m, r4, ?_, by simp, ?_⟩
  · rw [ha']
    simp
  · intro c hc
    rcases List.mem_cons.mp hc with rfl | hc
    · exact hc0
    · exact hmchars c hc

/-- Every name match starts with an uppercase letter immediately followed by
a lowercase letter. -/
theorem run_name_shape {prev q : Option Char} {s r : List Char}
    (h : (q, r) ∈ run nameRE prev s) :
    ∃ d e t2, s = d :: e :: t2 ∧ isUpperChar d = true ∧ isLowerChar e = true := by
  rw [nameRE] at h
  obtain ⟨q1, r1, h1, h2⟩ := mem_run_seq.mp h
  obtain ⟨-, rfl, rfl⟩ := mem_run_wb.mp h1
  obtain ⟨q2, r2, h3, h4⟩ := mem_run_seq.mp h2
  obtain ⟨d, rfl, hd, rfl⟩ := mem_run_cls.mp h3
  obtain ⟨q3, r3, h5, h6⟩ := mem_run_seq.mp h4
  rw [rePlus] at h5
  obtain ⟨q4, r4, h7, h8⟩ := mem_run_seq.mp h5
  obtain ⟨e, rfl, he, rfl⟩ := mem_run_cls.mp h7
  exact ⟨d, e, r4, rfl, hd, he⟩

/-- Email gate: the pattern cannot match starting at any position of a
region that contains no `'@'` and whose last character is not a local-part
character. -/
theorem hblock_email {repl : List Char}
    (hA : ∀ c ∈ repl, c = '@' → False)
    (hlast : ∀ c, repl.getLast? = some c → emailLocalChar c = false) :
    ∀ (prev' : Option Char) (k : ℕ) (rest' : List Char),
      k < repl.length → run emailRE prev' (repl.drop k ++ rest') = [] := by
  intro prev' k rest' hk
  by_contra hne
  obtain ⟨⟨q, r⟩, hmem⟩ := List.exists_mem_of_ne_nil _ hne
  obtain ⟨m1, t2, hs, hm1ne, hm1chars⟩ := run_email_shape hmem
  have hdne : repl.drop k ≠ [] := drop_ne_nil_of_lt hk
  by_cases hcmp : (repl.drop k).length ≤ m1.length
  · obtain ⟨t3, hm1, -⟩ := prefix_split hs hcmp
    obtain ⟨z, hz⟩ := exists_getLast?_of_ne_nil hdne
    have hzmem : z ∈ m1 := by
      rw [hm1]
      exact List.mem_append_left _ (mem_of_getLast?_eq hz)
    have h1 := hm1chars z hzmem
    rw [getLast?_drop_of_lt hk] at hz
    rw [hlast z hz] at h1
    simp at h1
  · push_neg at hcmp
    have h1 : (repl.drop k ++ rest')[m1.length]? = some '@' := by
      rw [hs]
      rw [List.getElem?_append_right (le_refl m1.length)]
      simp
    rw [List.getElem?_append, if_pos hcmp] at h1
    exact hA '@' (List.drop_subset k repl (List.getElem?_mem h1)) rfl

/-- Name gate: the pattern cannot match starting at any position of a
region that contains no lowercase letter and whose last character is not
uppercase. -/
theorem hblock_name {repl : List Char}
    (hlow : ∀ c ∈ repl, isLowerChar c = false)
    (hlast : ∀ c, repl.getLast? = some c → isUpperChar c = false) :
    ∀ (prev' : Option Char) (k : ℕ) (rest' : List Char),
      k < repl.length → run nameRE prev' (repl.drop k ++ rest') = [] := by
  intro prev' k rest' hk
  by_contra hne
  obtain ⟨⟨q, r⟩, hmem⟩ := List.exists_mem_of_ne_nil _ hne
  obtain ⟨d, e, t2, hs, hup, hlo⟩ := run_name_shape hmem
  cases hdk : repl.drop k with
  | nil => exact absurd hdk (drop_ne_nil_of_lt hk)
  | cons d0 ds =>
    rw [hdk] at hs
    cases ds with
    | nil =>
      have hd0 : d0 = d := by simpa using congrArg List.head? hs
      have hz : repl.getLast? = some d0 := by
        rw [← getLast?_drop_of_lt hk, hdk]
        simp
      have h1 := hlast d0 hz
      rw [hd0, hup] at h1
      simp at h1
    | cons d1 ds' =>
      have hd1 : d1 = e := by
        have h2 := congrArg (fun l => l[1]?) hs
        simpa using h2
      have hmem1 : d1 ∈ repl := by
        refine List.drop_subset k repl ?_
        rw [hdk]
        exact List.mem_cons_of_mem d0 (List.mem_cons_self d1 ds')
      have h1 := hlow d1 hmem1
      rw [hd1, hlo] at h1
      simp at h1

/-- `scanRep_clean_core` at the input's own length. -/
theorem clean_step {rei rej : RE} {replj : List Char}
    (hstarti : startsWithWb rei = true) (hendi : endsInWb rei = true)
    (hstartj : startsWithWb rej = true) (hendj : endsInWb rej = true)
    (hminj : 0 < minLen rej)
    (hheadj : ∃ b bs, replj = b :: bs ∧ alphabetOf rei b = false ∧ isWordChar b = false)
    (hlastj : ∃ z, replj.getLast? = some z ∧ isWordChar z = false)
    (hblock : ∀ (prev' : Option Char) (k : ℕ) (rest' : List Char),
      k < replj.length → run rei prev' (replj.drop k ++ rest') = [])
    {prev : Option Char} {s : List Char}
    (hpre : rei = rej ∨ cleanFrom rei prev s) :
    cleanFrom rei prev (scanRep rej replj prev s) :=
  scanRep_clean_core hstarti hendi hstartj hendj hminj hheadj hlastj hblock
    s.length prev s (le_refl _) hpre

theorem getLast?_imp {l : List Char} (z : Char) (P : Char → Bool)
    (h0 : l.getLast? = some z) (hz : P z = false) :
    ∀ c, l.getLast? = some c → P c = false := by
  intro c hc
  rw [h0] at hc
  obtain rfl : z = c := by simpa using hc
  exact hz

/-- After the full five-pattern pass, the output admits no match of any of
the five patterns at any position. -/
theorem pipeline_clean (l : List Char) :
    cleanFrom emailRE none
      (scanRep nameRE nameRepl none (scanRep cardRE cardRepl none
        (scanRep ssnRE ssnRepl none (scanRep phoneRE phoneRepl none
          (scanRep emailRE emailRepl none l))))) ∧
    cleanFrom phoneRE none
      (scanRep nameRE nameRepl none (scanRep cardRE cardRepl none
        (scanRep ssnRE ssnRepl none (scanRep phoneRE phoneRepl none
          (scanRep emailRE emailRepl none l))))) ∧
    cleanFrom ssnRE none
      (scanRep nameRE nameRepl none (scanRep cardRE cardRepl none
        (scanRep ssnRE ssnRepl none (scanRep phoneRE phoneRepl none
          (scanRep emailRE emailRepl none l))))) ∧
    cleanFrom cardRE none
      (scanRep nameRE nameRepl none (scanRep cardRE cardRepl none
        (scanRep ssnRE ssnRepl none (scanRep phoneRE phoneRepl none
          (scanRep emailRE emailRepl none l))))) ∧
    cleanFrom nameRE none
      (scanRep nameRE nameRepl none (scanRep cardRE cardRepl none
        (scanRep ssnRE ssnRepl none (scanRep phoneRE phoneRepl none
          (scanRep emailRE emailRepl none l))))) := by
  have cE1 : cleanFrom emailRE none (scanRep emailRE emailRepl none l) :=
    clean_step (by decide) (by decide) (by decide) (by decide) (by decide)
      ⟨'[', "EMAIL_REDACTED]".data, by decide, by decide, by decide⟩
      ⟨']', by decide, by decide⟩
      (hblock_email (by decide) (getLast?_imp ']' emailLocalChar (by decide) (by decide)))
      (Or.inl rfl)
  have cE2 : cleanFrom emailRE none
      (scanRep phoneRE phoneRepl none (scanRep emailRE emailRepl none l)) :=
    clean_step (by decide) (by decide) (by decide) (by decide) (by decide)
      ⟨'[', "PHONE_REDACTED]".data, by decide, by decide, by decide⟩
      ⟨']', by decide, by decide⟩
      (hblock_email (by decide) (getLast?_imp ']' emailLocalChar (by decide) (by decide)))
      (Or.inr cE1)
  have cP2 : cleanFrom phoneRE none
      (scanRep phoneRE phoneRepl none (scanRep emailRE emailRepl none l)) :=
    clean_step (by decide) (by decide) (by decide) (by decide) (by decide)
      ⟨'[', "PHONE_REDACTED]".data, by decide, by decide, by decide⟩
      ⟨']', by decide, by decide⟩
      (hblock_of_alphabet (by decide) (by decide))
      (Or.inl rfl)
  have cE3 : cleanFrom emailRE none
      (scanRep ssnRE ssnRepl none (scanRep phoneRE phoneRepl none
        (scanRep emailRE emailRepl none l))) :=
    clean_step (by decide) (by decide) (by decide) (by decide) (by decide)
      ⟨'[', "SSN_REDACTED]".data, by decide, by decide, by decide⟩
      ⟨']', by decide, by decide⟩
      (hblock_email (by decide) (getLast?_imp ']' emailLocalChar (by decide) (by decide)))
      (Or.inr cE2)
  have cP3 : cleanFrom phoneRE none
      (scanRep ssnRE ssnRepl none (scanRep phoneRE phoneRepl none
        (scanRep emailRE emailRepl none l))) :=
    clean_step (by decide) (by decide) (by decide) (by decide) (by decide)
      ⟨'[', "SSN_REDACTED]".data, by decide, by decide, by decide⟩
      ⟨']', by decide, by decide⟩
      (hblock_of_alphabet (by decide) (by decide))
      (Or.inr cP2)
  have cS3 : cleanFrom ssnRE none
      (scanRep ssnRE ssnRepl none (scanRep phoneRE phoneRepl none
        (scanRep emailRE emailRepl none l))) :=
    clean_step (by decide) (by decide) (by decide) (by decide) (by decide)
      ⟨'[', "SSN_REDACTED]".data, by decide, by decide, by decide⟩
      ⟨']', by decide, by decide⟩
      (hblock_of_alphabet (by decide) (by decide))
      (Or.inl rfl)
  have cE4 : cleanFrom emailRE none
      (scanRep cardRE cardRepl none (scanRep ssnRE ssnRepl none
        (scanRep phoneRE phoneRepl none (scanRep emailRE emailRepl none l)))) :=
    clean_step (by decide) (by decide) (by decide) (by decide) (by decide)
      ⟨'[', "CARD_REDACTED]".data, by decide, by decide, by decide⟩
      ⟨']', by decide, by decide⟩
      (hblock_email (by decide) (getLast?_imp ']' emailLocalChar (by decide) (by decide)))
      (Or.inr cE3)
  have cP4 : cleanFrom phoneRE none
      (scanRep cardRE cardRepl none (scanRep ssnRE ssnRepl none
        (scanRep phoneRE phoneRepl none (scanRep emailRE emailRepl none l)))) :=
    clean_step (by decide) (by decide) (by decide) (by decide) (by decide)
      ⟨'[', "CARD_REDACTED]".data, by decide, by decide, by decide⟩
      ⟨']', by decide, by decide⟩
      (hblock_of_alphabet (by decide) (by decide))
      (Or.inr cP3)
  have cS4 : cleanFrom ssnRE none
      (scanRep cardRE cardRepl none (scanRep ssnRE ssnRepl none
        (scanRep phoneRE phoneRepl none (scanRep emailRE emailRepl none l)))) :=
    clean_step (by decide) (by decide) (by decide) (by decide) (by decide)
      ⟨'[', "CARD_REDACTED]".data, by decide, by decide, by decide⟩
      ⟨']', by decide, by decide⟩
      (hblock_of_alphabet (by decide) (by decide))
      (Or.inr cS3)
  have cC4 : cleanFrom cardRE none
      (scanRep cardRE cardRepl none (scanRep ssnRE ssnRepl none
        (scanRep phoneRE phoneRepl none (scanRep emailRE emailRepl none l)))) :=
    clean_step (by decide) (by decide) (by decide) (by decide) (by decide)
      ⟨'[', "CARD_REDACTED]".data, by decide, by decide, by decide⟩
      ⟨']', by decide, by decide⟩
      (hblock_of_alphabet (by decide) (by decide))
      (Or.inl rfl)
  have cE5 : cleanFrom emailRE none
      (scanRep nameRE nameRepl none (scanRep cardRE cardRepl none
        (scanRep ssnRE ssnRepl none (scanRep phoneRE phoneRepl none
          (scanRep emailRE emailRepl none l))))) :=
    clean_step (by decide) (by decide) (by decide) (by decide) (by decide)
      ⟨'[', "NAME_REDACTED]".data, by decide, by decide, by decide⟩
      ⟨']', by decide, by decide⟩
      (hblock_email (by decide) (getLast?_imp ']' emailLocalChar (by decide) (by decide)))
      (Or.inr cE4)
  have cP5 : cleanFrom phoneRE none
      (scanRep nameRE nameRepl none (scanRep cardRE cardRepl none
        (scanRep ssnRE ssnRepl none (scanRep phoneRE phoneRepl none
          (scanRep emailRE emailRepl none l))))) :=
    clean_step (by decide) (by decide) (by decide) (by decide) (by decide)
      ⟨'[', "NAME_REDACTED]".data, by decide, by decide, by decide⟩
      ⟨']', by decide, by decide⟩
      (hblock_of_alphabet (by decide) (by decide))
      (Or.inr cP4)
  have cS5 : cleanFrom ssnRE none
      (scanRep nameRE nameRepl none (scanRep cardRE cardRepl none
        (scanRep ssnRE ssnRepl none (scanRep phoneRE phoneRepl none
          (scanRep emailRE emailRepl none l))))) :=
    clean_step (by decide) (by decide) (by decide) (by decide) (by decide)
      ⟨'[', "NAME_REDACTED]".data, by decide, by decide, by decide⟩
      ⟨']', by decide, by decide⟩
      (hblock_of_alphabet (by decide) (by decide))
      (Or.inr cS4)
  have cC5 : cleanFrom cardRE none
      (scanRep nameRE nameRepl none (scanRep cardRE cardRepl none
        (scanRep ssnRE ssnRepl none (scanRep phoneRE phoneRepl none
          (scanRep emailRE emailRepl none l))))) :=
    clean_step (by decide) (by decide) (by decide) (by decide) (by decide)
      ⟨'[', "NAME_REDACTED]".data, by decide, by decide, by decide⟩
      ⟨']', by decide, by decide⟩
      (hblock_of_alphabet (by decide) (by decide))
      (Or.inr cC4)
  have cN5 : cleanFrom nameRE none
      (scanRep nameRE nameRepl none (scanRep cardRE cardRepl none
        (scanRep ssnRE ssnRepl none (scanRep phoneRE phoneRepl none
          (scanRep emailRE emailRepl none l))))) :=
    clean_step (by decide) (by decide) (by decide) (by decide) (by decide)
      ⟨'[', "NAME_REDACTED]".data, by decide, by decide, by decide⟩
      ⟨']', by decide, by decide⟩
      (hblock_name (by decide) (getLast?_imp ']' isUpperChar (by decide) (by decide)))
      (Or.inl rfl)
  exact ⟨cE5, cP5, cS5, cC5, cN5⟩

/-- C8: `redactPII` is idempotent — redacting already-redacted text is a
no-op, because the placeholder tokens admit no further match of any of the
five PII patterns. -/
theorem c8_redact_idempotent (t : String) :
    redactPII (redactPII t) = redactPII t := by
  by_cases h0 : t == ""
  · have ht : redactPII t = t := by
      rw [redactPII, if_pos h0]
    rw [ht, ht]
  · have houter : redactPII t =
        ⟨scanRep nameRE nameRepl none (scanRep cardRE cardRepl none
          (scanRep ssnRE ssnRepl none (scanRep phoneRE phoneRepl none
            (scanRep emailRE emailRepl none t.data))))⟩ := by
      rw [redactPII, if_neg h0]
    obtain ⟨cE, cP, cS, cC, cN⟩ := pipeline_clean t.data
    rw [houter, redactPII]
    by_cases h5 : (String.mk (scanRep nameRE nameRepl none (scanRep cardRE cardRepl none
        (scanRep ssnRE ssnRepl none (scanRep phoneRE phoneRepl none
          (scanRep emailRE emailRepl none t.data)))))) == ""
    · rw [if_pos h5]
    · rw [if_neg h5]
      have hdata : (String.mk (scanRep nameRE nameRepl none (scanRep cardRE cardRepl none
          (scanRep ssnRE ssnRepl none (scanRep phoneRE phoneRepl none
            (scanRep emailRE emailRepl none t.data)))))).data =
          scanRep nameRE nameRepl none (scanRep cardRE cardRepl none
            (scanRep ssnRE ssnRepl none (scanRep phoneRE phoneRepl none
              (scanRep emailRE emailRepl none t.data)))) := rfl
      rw [hdata, scanRep_of_clean cE, scanRep_of_clean cP, scanRep_of_clean cS,
        scanRep_of_clean cC, scanRep_of_clean cN]

end SalesRoleplay
